import Mathlib

/-!
Verification development for the RunbookQuery hybrid retrieval engine.

The Python source under `src/runbook_query/` is shallowly embedded:
pure functions become Lean functions, `dict`/`OrderedDict` state becomes
insertion-ordered association lists, float arithmetic is idealised as exact
arithmetic (`ℚ`, and `ℝ` where the BM25 formula needs a logarithm), and
Python's stable `sorted` is modelled by sorting the enumerated list under the
lexicographic order (key, original position), which characterises the unique
stable result.
-/

namespace RunbookQuery

/-! ## A model of Python's stable `sorted(..., key=..., reverse=True)`

`sorted` with `reverse=True` is a stable sort: elements are ordered by
descending key, and elements with equal keys keep their original relative
order.  We model it by enumerating the list and sorting the `(index, value)`
pairs under the total order "larger key first, then smaller index first". -/
def pyKeyLe {α κ : Type} [LinearOrder κ] (key : α → κ) (a b : ℕ × α) : Prop :=
  key b.2 < key a.2 ∨ (key b.2 = key a.2 ∧ a.1 ≤ b.1)

instance pyKeyLe.decRel {α κ : Type} [LinearOrder κ] (key : α → κ) :
    DecidableRel (pyKeyLe key) := fun _ _ => inferInstanceAs (Decidable (_ ∨ _))

instance pyKeyLe.isTotal {α κ : Type} [LinearOrder κ] (key : α → κ) :
    IsTotal (ℕ × α) (pyKeyLe key) := by
  constructor
  intro a b
  rcases lt_trichotomy (key a.2) (key b.2) with h | h | h
  · exact Or.inr (Or.inl h)
  · rcases Nat.le_total a.1 b.1 with hi | hi
    · exact Or.inl (Or.inr ⟨h.symm, hi⟩)
    · exact Or.inr (Or.inr ⟨h, hi⟩)
  · exact Or.inl (Or.inl h)

instance pyKeyLe.isTrans {α κ : Type} [LinearOrder κ] (key : α → κ) :
    IsTrans (ℕ × α) (pyKeyLe key) := by
  constructor
  rintro a b c (hab | ⟨hab, hab'⟩) (hbc | ⟨hbc, hbc'⟩)
  · exact Or.inl (hbc.trans hab)
  · exact Or.inl (hbc.trans_lt hab)
  · exact Or.inl (hbc.trans_eq hab)
  · exact Or.inr ⟨hbc.trans hab, hab'.trans hbc'⟩

/-- Model of Python `sorted(l, key=key, reverse=True)` (a stable sort). -/
def pySortByDesc {α κ : Type} [LinearOrder κ] (key : α → κ) (l : List α) : List α :=
  ((l.enum).insertionSort (pyKeyLe key)).map Prod.snd

/-- The enumerated, sorted list underlying `pySortByDesc`. -/
def pySortEnum {α κ : Type} [LinearOrder κ] (key : α → κ) (l : List α) : List (ℕ × α) :=
  (l.enum).insertionSort (pyKeyLe key)

/-! ## Tokenizer (`BM25Retriever._tokenize` in `retrieval/bm25.py`)

Lowercase the text, extract maximal runs matching `[a-z0-9]+`, and drop
tokens of length 1 unless they are purely numeric.  ASCII idealisation of
Python's `str.lower` / `str.isdigit`. -/
def isTokChar (c : Char) : Bool := ('a' ≤ c && c ≤ 'z') || ('0' ≤ c && c ≤ '9')

def pyIsDigit (c : Char) : Bool := '0' ≤ c && c ≤ '9'

/-- Maximal runs of token characters, with explicit fuel so that the kernel
can evaluate it (fuel `≥` list length always suffices). -/
def tokenRunsF : ℕ → List Char → List (List Char)
  | 0, _ => []
  | _ + 1, [] => []
  | fuel + 1, c :: cs =>
    if isTokChar c then
      (c :: cs.takeWhile isTokChar) :: tokenRunsF fuel (cs.dropWhile isTokChar)
    else
      tokenRunsF fuel cs

/-- Model of `BM25Retriever._tokenize`: lowercase, `re.findall(r"[a-z0-9]+")`,
drop 1-character tokens unless purely numeric. -/
def pyTokenize (s : String) : List String :=
  ((tokenRunsF s.toList.length (s.toList.map Char.toLower)).filter
    (fun t => t.length > 1 || t.all pyIsDigit)).map String.mk

/-! ## Reciprocal rank fusion (`HybridRetriever._reciprocal_rank_fusion` in
`retrieval/hybrid.py`)

The `scores` dict is modelled as an insertion-ordered association list:
`scores[chunk_id] = scores.get(chunk_id, 0) + rrf_score` updates an existing
key in place and appends a new key at the end, exactly like a Python dict. -/
def upsertAdd : List (String × ℚ) → String → ℚ → List (String × ℚ)
  | [], k, v => [(k, v)]
  | (k', v') :: rest, k, v =>
    if k' = k then (k', v' + v) :: rest else (k', v') :: upsertAdd rest k v

/-- One retriever pass of `_reciprocal_rank_fusion`:
`for rank, (chunk_id, score) in enumerate(results, 1): scores[chunk_id] =
scores.get(chunk_id, 0) + weight * (1.0 / (rrf_k + rank))`, starting at
1-based rank `rank`. -/
def rrfAccumFrom (w kR : ℚ) : ℕ → List (String × ℚ) → List (String × ℚ) → List (String × ℚ)
  | _, [], scores => scores
  | rank, (cid, _) :: rest, scores =>
    rrfAccumFrom w kR (rank + 1) rest (upsertAdd scores cid (w * (1 / (kR + rank))))

/-- The fully accumulated `scores` dict of `_reciprocal_rank_fusion`
(BM25 loop first, then the vector loop). -/
def rrfScores (wB wV kR : ℚ) (B V : List (String × ℚ)) : List (String × ℚ) :=
  rrfAccumFrom wV kR 1 V (rrfAccumFrom wB kR 1 B [])

/-- `sorted_results = sorted(scores.items(), key=lambda x: -x[1])[:top_k]`:
the fused output as `(chunk_id, final_score)` pairs. -/
def rrfFused (wB wV kR : ℚ) (B V : List (String × ℚ)) (topK : ℕ) : List (String × ℚ) :=
  (pySortByDesc Prod.snd (rrfScores wB wV kR B V)).take topK

/-- The fuser with the constructor defaults `rrf_k=60`,
`bm25_weight=vector_weight=0.5`. -/
def rrfFusedDefault (B V : List (String × ℚ)) (topK : ℕ) : List (String × ℚ) :=
  rrfFused (1/2) (1/2) 60 B V topK

/-- Key set evolution of a Python dict: an existing key keeps its slot, a new
key is appended. -/
def insKey (acc : List String) (k : String) : List String :=
  if k ∈ acc then acc else acc ++ [k]

/-- Insertion order of keys after writing `ks` (in order) into a dict whose
keys are currently `acc`. -/
def dictKeysFrom : List String → List String → List String
  | acc, [] => acc
  | acc, k :: ks => dictKeysFrom (insKey acc k) ks

/-- Score lookup in the accumulated dict, with the dict's `get(·, 0)` default. -/
def lookupScore : List (String × ℚ) → String → ℚ
  | [], _ => 0
  | (k', v) :: rest, k => if k' = k then v else lookupScore rest k

/-- The total reciprocal-rank mass that list `R` contributes to chunk `x`,
with ranks counted from `rank` (the code starts at 1). -/
def sumOcc (kR : ℚ) : ℕ → List (String × ℚ) → String → ℚ
  | _, [], _ => 0
  | rank, (cid, _) :: rest, x =>
    (if cid = x then 1 / (kR + rank) else 0) + sumOcc kR (rank + 1) rest x

/-- Number of occurrences of chunk id `x` among the candidates of `L`. -/
def occCount (L : List (String × ℚ)) (x : String) : ℕ :=
  (L.filter (fun e => e.1 = x)).length

/-- 1-based rank of the first occurrence of `x` in candidate list `L`. -/
def keyRank1 (L : List (String × ℚ)) (x : String) : ℕ :=
  (L.map Prod.fst).indexOf x + 1

/-! ### The spec's published tie-break chain (for comparison with the code)

The following definitions follow the spec's words, not the code: "Final
ordering is descending `rrf`; ties broken by (1) presence in both lists
before one, (2) smaller `min(rank_b, rank_v)`, (3) ascending `chunk_id`." -/

/-- Python string `<` (lexicographic by code point), executable. -/
def strLtB : List Char → List Char → Bool
  | [], [] => false
  | [], _ :: _ => true
  | _ :: _, [] => false
  | a :: as, b :: bs =>
    if a.toNat < b.toNat then true else if b.toNat < a.toNat then false else strLtB as bs

def pyStrLt (a b : String) : Prop := strLtB a.toList b.toList = true

/-- Follows the spec's words: `min(rank_b, rank_v)` over the sides where the
document is present (1-based first-occurrence ranks). -/
def specMinRank (B V : List (String × ℚ)) (id : String) : ℕ :=
  if id ∈ B.map Prod.fst then
    if id ∈ V.map Prod.fst then min (keyRank1 B id) (keyRank1 V id) else keyRank1 B id
  else if id ∈ V.map Prod.fst then keyRank1 V id
  else 0

/-- Follows the spec's words: the tie-break chain "(1) presence in both lists
before one, (2) smaller min(rank_b, rank_v), (3) ascending chunk_id". -/
def specTieBefore (B V : List (String × ℚ)) (x y : String) : Prop :=
  ((x ∈ B.map Prod.fst ∧ x ∈ V.map Prod.fst) ∧
      ¬ (y ∈ B.map Prod.fst ∧ y ∈ V.map Prod.fst)) ∨
  (((x ∈ B.map Prod.fst ∧ x ∈ V.map Prod.fst) ↔
      (y ∈ B.map Prod.fst ∧ y ∈ V.map Prod.fst)) ∧
    (specMinRank B V x < specMinRank B V y ∨
      (specMinRank B V x = specMinRank B V y ∧ pyStrLt x y)))

/-- Follows the spec's words: descending score, ties resolved by
`specTieBefore`. -/
def specRrfOrdered (B V out : List (String × ℚ)) : Prop :=
  out.Pairwise (fun x y => y.2 < x.2 ∨ (x.2 = y.2 ∧ specTieBefore B V x.1 y.1))

instance specTieBefore.dec (B V : List (String × ℚ)) (x y : String) :
    Decidable (specTieBefore B V x y) := by
  unfold specTieBefore specMinRank pyStrLt
  infer_instance

def cxB1 : List (String × ℚ) := [("b", 1)]

def cxV1 : List (String × ℚ) := [("a", 1)]

def cxB9 : List (String × ℚ) := [("z", 3)]

def cxV9 : List (String × ℚ) := [("y", 2), ("x", 5)]

def cxV9' : List (String × ℚ) := [("x", 5)]

/-! ## BM25 retriever (`retrieval/bm25.py`)

State after `build_index`/`load`: `_chunk_ids`, `_tokenized_corpus`, the
parameters `k1`/`b`, and whether `_index` was created (`BM25Okapi` is built
exactly when the tokenized corpus is nonempty).  Scores are idealised as real
numbers.  The scoring function itself is modelled from the spec (§4.2 of
`spec.md`), because the `rank_bm25` library is an external dependency whose
source is not part of this repository; the properties proved below depend on
it only through "a term not in the vocabulary contributes 0". -/
structure BM25State where
  chunk_ids : List String
  corpus : List (List String)
  k1 : ℝ
  b : ℝ
  hasIndex : Bool

/-- `BM25Retriever.build_index(chunks)`. -/
def bm25BuildIndex (k1 b : ℝ) (chunks : List (String × String)) : BM25State :=
  { chunk_ids := chunks.map Prod.fst
    corpus := chunks.map (fun c => pyTokenize c.2)
    k1 := k1
    b := b
    hasIndex := !(chunks.map (fun c => pyTokenize c.2)).isEmpty }

/-- Whether token `t` occurs in some indexed document. -/
def bm25InVocab (st : BM25State) (t : String) : Prop :=
  st.corpus.any (fun d => d.contains t) = true

instance bm25InVocab.dec (st : BM25State) (t : String) : Decidable (bm25InVocab st t) :=
  inferInstanceAs (Decidable (_ = true))

/-- Modelled from the spec: `idf(t) = ln((N − df(t) + 0.5)/(df(t) + 0.5) + 1)`. -/
noncomputable def bm25Idf (st : BM25State) (t : String) : ℝ :=
  let N : ℝ := st.corpus.length
  let df : ℝ := st.corpus.countP (fun d => d.contains t)
  Real.log ((N - df + 1/2) / (df + 1/2) + 1)

/-- Average document length `avgdl`. -/
noncomputable def bm25Avgdl (st : BM25State) : ℝ :=
  ((st.corpus.map List.length).sum : ℕ) / (st.corpus.length : ℝ)

/-- Modelled from the spec: the contribution of one query token `t` to the
score of document `d`; tokens outside the vocabulary contribute 0. -/
noncomputable def bm25TermScore (st : BM25State) (t : String) (d : List String) : ℝ :=
  if st.corpus.any (fun doc => doc.contains t) then
    bm25Idf st t * ((d.count t : ℕ) * (st.k1 + 1))
      / ((d.count t : ℕ) + st.k1 * (1 - st.b + st.b * (d.length : ℕ) / bm25Avgdl st))
  else 0

/-- Modelled from the spec: `score(Q, d)` summed over the query token
multiset. -/
noncomputable def bm25ScoreDoc (st : BM25State) (q : List String) (d : List String) : ℝ :=
  (q.map (fun t => bm25TermScore st t d)).sum

/-- Model of `self._index.get_scores(query_tokens)`: one score per document,
in corpus order. -/
noncomputable def bm25GetScores (st : BM25State) (q : List String) : List ℝ :=
  st.corpus.map (bm25ScoreDoc st q)

/-- The core of `BM25Retriever.search`: pair ids with scores, stable-sort by
descending score, slice to `top_k`, then drop non-positive scores (the code
filters after slicing). -/
noncomputable def bm25Rank (st : BM25State) (qT : List String) (topK : ℕ) :
    List (String × ℝ) :=
  ((pySortByDesc Prod.snd (st.chunk_ids.zip (bm25GetScores st qT))).take topK).filter
    (fun p => decide (0 < p.2))

/-- `BM25Retriever.search(query, top_k)`. -/
noncomputable def bm25Search (st : BM25State) (query : String) (topK : ℕ) :
    List (String × ℝ) :=
  if st.hasIndex = false ∨ st.chunk_ids = [] then []
  else if pyTokenize query = [] then []
  else bm25Rank st (pyTokenize query) topK

def cxChunks2 : List (String × String) := [("c1", "alpha beta"), ("c2", "beta gamma")]

/-! ### BM25 save/load round-trip (`BM25Retriever.save` / `BM25Retriever.load`)

`save` writes `{k1, b, chunk_ids, corpus}` as JSON; `load` reads the same
four fields back and rebuilds `BM25Okapi` from the stored corpus exactly when
it is nonempty.  JSON serialisation of floats, strings and nested lists is
lossless, so the on-disk payload is modelled as the record itself. -/
structure BM25SaveData where
  k1 : ℝ
  b : ℝ
  chunk_ids : List String
  corpus : List (List String)

/-- `BM25Retriever.save(path)`: the data dictionary written to disk. -/
def bm25Save (st : BM25State) : BM25SaveData :=
  { k1 := st.k1, b := st.b, chunk_ids := st.chunk_ids, corpus := st.corpus }

/-- `BM25Retriever.load(path)` on a fresh instance: restores the four fields
and rebuilds the index if the corpus is nonempty. -/
def bm25Load (d : BM25SaveData) : BM25State :=
  { chunk_ids := d.chunk_ids
    corpus := d.corpus
    k1 := d.k1
    b := d.b
    hasIndex := !d.corpus.isEmpty }

/-! ## Cache keys (`QueryCache._make_key` in `retrieval/cache.py`)

`_make_key` builds `{"query": query.lower().strip(), "filters": filters or
{}, "top_k": top_k}`, serialises it with `json.dumps(key_data,
sort_keys=True)` and keeps 32 hex chars of its SHA-256.  The spec treats the
truncated hash as collision-free, so the key is modelled as the canonical
JSON string itself.  `None` filters are passed as the empty list. -/

mutual
inductive JVal where
  | s (v : String)
  | n (v : Int)
  | arr (vs : JArr)
  | obj (fs : JObj)
inductive JArr where
  | nil
  | cons (hd : JVal) (tl : JArr)
inductive JObj where
  | nil
  | cons (k : String) (v : JVal) (tl : JObj)
end

def JObj.ofList : List (String × JVal) → JObj
  | [] => .nil
  | (k, v) :: tl => .cons k v (JObj.ofList tl)

def JArr.ofList : List JVal → JArr
  | [] => .nil
  | v :: tl => .cons v (JArr.ofList tl)

def JArr.toList : JArr → List JVal
  | .nil => []
  | .cons v tl => v :: JArr.toList tl

def hexDigit (n : ℕ) : Char :=
  if n < 10 then Char.ofNat (48 + n) else Char.ofNat (87 + n)

/-- Decimal digits of a natural number (fuel-based so the kernel evaluates
it; fuel `≥ n` suffices). -/
def natDecF : ℕ → ℕ → List Char
  | 0, _ => []
  | fuel + 1, n => if n = 0 then [] else natDecF fuel (n / 10) ++ [hexDigit (n % 10)]

/-- Python `repr` of an `int`. -/
def dumpInt (n : Int) : String :=
  match n with
  | Int.ofNat m => if m = 0 then "0" else String.mk (natDecF m m)
  | Int.negSucc m => "-" ++ String.mk (natDecF (m + 1) (m + 1))

def uEscape (n : ℕ) : List Char :=
  ['\\', 'u', hexDigit (n / 4096 % 16), hexDigit (n / 256 % 16),
   hexDigit (n / 16 % 16), hexDigit (n % 16)]

/-- `json.dumps` string escaping with the default `ensure_ascii=True`. -/
def jsonEscapeChar (c : Char) : List Char :=
  if c = '"' then ['\\', '"']
  else if c = '\\' then ['\\', '\\']
  else if c = '\n' then ['\\', 'n']
  else if c = '\t' then ['\\', 't']
  else if c = '\r' then ['\\', 'r']
  else if c.toNat = 8 then ['\\', 'b']
  else if c.toNat = 12 then ['\\', 'f']
  else if c.toNat < 32 then uEscape c.toNat
  else if c.toNat < 128 then [c]
  else if c.toNat < 65536 then uEscape c.toNat
  else uEscape (55296 + (c.toNat - 65536) / 1024) ++ uEscape (56320 + (c.toNat - 65536) % 1024)

def dumpStr (s : String) : String :=
  "\"" ++ String.mk ((s.toList.map jsonEscapeChar).flatten) ++ "\""

/-- Ordering used by `sorted(d.items())`: compares the (unique) keys with
Python string `<`. -/
def fieldLe (a b : String × String) : Prop := strLtB b.1.toList a.1.toList = false

def fieldLt (a b : String × String) : Prop := strLtB a.1.toList b.1.toList = true

instance fieldLe.decRel : DecidableRel fieldLe :=
  fun _ _ => inferInstanceAs (Decidable (_ = false))

/-- `sorted(d.items())` as used by `json.dumps(..., sort_keys=True)`. -/
def sortFields (fs : List (String × String)) : List (String × String) :=
  List.insertionSort fieldLe fs

def joinFields : List (String × String) → String
  | [] => ""
  | [(k, v)] => dumpStr k ++ ": " ++ v
  | (k, v) :: tl => dumpStr k ++ ": " ++ v ++ ", " ++ joinFields tl

def joinItems : List String → String
  | [] => ""
  | [v] => v
  | v :: tl => v ++ ", " ++ joinItems tl

mutual
/-- `json.dumps(v, sort_keys=True)` with the default separators. -/
def dumpVal : JVal → String
  | .s v => dumpStr v
  | .n v => dumpInt v
  | .arr vs => "[" ++ joinItems (dumpArr vs) ++ "]"
  | .obj fs => "\x7b" ++ joinFields (sortFields (dumpFields fs)) ++ "\x7d"
def dumpArr : JArr → List String
  | .nil => []
  | .cons v tl => dumpVal v :: dumpArr tl
def dumpFields : JObj → List (String × String)
  | .nil => []
  | .cons k v tl => (k, dumpVal v) :: dumpFields tl
end

/-- ASCII idealisation of Python `str.lower`. -/
def pyLower (s : String) : String := String.mk (s.toList.map Char.toLower)

def isPyWs (c : Char) : Bool :=
  c = ' ' || c = '\t' || c = '\n' || c = '\r' || c.toNat = 11 || c.toNat = 12

/-- ASCII idealisation of Python `str.strip()`. -/
def pyStrip (s : String) : String :=
  String.mk (((s.toList.dropWhile isPyWs).reverse.dropWhile isPyWs).reverse)

/-- `QueryCache._make_key(query, filters, top_k)`, with the truncated SHA-256
modelled as the canonical JSON string it hashes. -/
def makeKey (query : String) (filters : List (String × JVal)) (topK : Int) : String :=
  dumpVal (.obj (JObj.ofList
    [("query", .s (pyStrip (pyLower query))),
     ("filters", .obj (JObj.ofList filters)),
     ("top_k", .n topK)]))

/-! ## LRU query cache (`QueryCache` in `retrieval/cache.py`)

The `OrderedDict` is an insertion-ordered association list whose head is the
least recently used entry.  Timestamps are idealised as integers.  The
constructor turns a falsy `max_size` into the positive configured default,
so `1 ≤ maxSize` throughout (the eviction loop of `set` would raise on an
empty dict otherwise). -/

structure CEntry (α : Type) where
  results : α
  createdAt : Int
  hits : ℕ
deriving DecidableEq

structure CacheState (α : Type) where
  maxSize : ℕ
  ttl : Int
  entries : List (String × CEntry α)
  hitsCt : ℕ
  missesCt : ℕ
deriving DecidableEq

def emptyCache (α : Type) (maxSize : ℕ) (ttl : Int) : CacheState α :=
  { maxSize := maxSize, ttl := ttl, entries := [], hitsCt := 0, missesCt := 0 }

def findEntry {α : Type} : List (String × CEntry α) → String → Option (CEntry α)
  | [], _ => none
  | (k', e) :: tl, k => if k' = k then some e else findEntry tl k

def eraseKey {α : Type} : List (String × CEntry α) → String → List (String × CEntry α)
  | [], _ => []
  | (k', e) :: tl, k => if k' = k then tl else (k', e) :: eraseKey tl k

/-- `self._cache[key] = entry`: replace in place if present, else append. -/
def upsertEntry {α : Type} : List (String × CEntry α) → String → CEntry α →
    List (String × CEntry α)
  | [], k, e => [(k, e)]
  | (k', e') :: tl, k, e => if k' = k then (k, e) :: tl else (k', e') :: upsertEntry tl k e

/-- `while len(self._cache) >= self.max_size: self._cache.popitem(last=False)`
(fuel `≥` list length + 1 suffices; Python never pops an empty dict since
`max_size ≥ 1`). -/
def evictLoopF {β : Type} (maxSize : ℕ) : ℕ → List β → List β
  | 0, l => l
  | fuel + 1, l => if maxSize ≤ l.length then evictLoopF maxSize fuel l.tail else l

/-- `QueryCache.get(query, filters, top_k)` at time `now`: returns the cached
value (or `none`) together with the updated cache state (TTL eviction, LRU
move-to-end, counters). -/
def cacheGet {α : Type} (st : CacheState α) (now : Int) (q : String)
    (f : List (String × JVal)) (k : Int) : Option α × CacheState α :=
  let key := makeKey q f k
  match findEntry st.entries key with
  | none => (none, { st with missesCt := st.missesCt + 1 })
  | some e =>
    if st.ttl < now - e.createdAt then
      (none, { st with entries := eraseKey st.entries key, missesCt := st.missesCt + 1 })
    else
      (some e.results,
       { st with
          entries := eraseKey st.entries key ++ [(key, { e with hits := e.hits + 1 })],
          hitsCt := st.hitsCt + 1 })

/-- `QueryCache.set(query, results, filters, top_k)` at time `now`. -/
def cacheSet {α : Type} (st : CacheState α) (now : Int) (q : String) (res : α)
    (f : List (String × JVal)) (k : Int) : CacheState α :=
  let key := makeKey q f k
  let kept := evictLoopF st.maxSize (st.entries.length + 1) st.entries
  { st with entries := upsertEntry kept key { results := res, createdAt := now, hits := 0 } }

/-- A sequence of `set` calls with a shared payload/filters/top_k. -/
def setMany {α : Type} (now : Int) (res : α) (f : List (String × JVal)) (k : Int)
    (st : CacheState α) : List String → CacheState α
  | [] => st
  | q :: qs => setMany now res f k (cacheSet st now q res f k) qs

/-! ## Search orchestrator (`SearchService.search` in `api/service.py`)

The enrichment step creates fresh `SearchResult` objects per request; object
identity is modelled by a heap (`List SRData`) addressed by natural-number
references.  The cache stores the list of references that `search` also
returns (the code caches `enriched_results` and returns a slice of it).  The
retrieval-plus-enrichment pipeline (`_retrieve_with_fallback` composed with
`_enrich_results`) reaches external collaborators (retrievers, metadata
store) and is therefore a parameter producing the enriched result data. -/

/-- The enriched `SearchResult` payload (`models/search.py`); the score
breakdown is idealised to its integer-valued `final_score` slot, which no
claim inspects arithmetically. -/
structure SRData where
  chunkId : String
  title : String
  snippet : String
  url : String
  sourceType : String
  project : String
  finalScore : Int
deriving DecidableEq

structure SvcResponse where
  results : List ℕ
  totalResults : ℕ
  retrievalMode : String
  cacheHit : Bool
deriving DecidableEq

structure SvcState where
  cache : CacheState (List ℕ)
  heap : List SRData
  runs : ℕ

/-- Read result objects through the heap. -/
def readRefs (heap : List SRData) (refs : List ℕ) : List (Option SRData) :=
  refs.map (fun r => heap.get? r)

/-- Python `x in list_of_values` for a string against a JSON array. -/
def jarrHasStr : JArr → String → Bool
  | .nil, _ => false
  | .cons (.s v) tl, x => (v = x) || jarrHasStr tl x
  | .cons _ tl, x => jarrHasStr tl x

def jarrIsEmpty : JArr → Bool
  | .nil => true
  | .cons _ _ => false

def lookupJ : List (String × JVal) → String → Option JVal
  | [], _ => none
  | (k', v) :: tl, k => if k' = k then some v else lookupJ tl k

/-- `SearchService._apply_filters`: keep results whose `source_type` /
`project` is in the (truthy) list-valued filter.  Non-list filter values are
outside the request schema (§6 of the spec) and are treated as absent. -/
def applyFilters (rs : List SRData) (filters : List (String × JVal)) : List SRData :=
  let rs1 := match lookupJ filters "source_types" with
    | some (.arr vs) =>
      if jarrIsEmpty vs then rs else rs.filter (fun r => jarrHasStr vs r.sourceType)
    | _ => rs
  match lookupJ filters "projects" with
  | some (.arr vs) =>
    if jarrIsEmpty vs then rs1 else rs1.filter (fun r => jarrHasStr vs r.project)
  | _ => rs1

/-- Python truthiness of the value returned by `cache.get` (`if cached:`):
`None` and the empty list are both falsy. -/
def pyTruthyOptList (v : Option (List ℕ)) : Bool :=
  match v with
  | some l => !l.isEmpty
  | none => false

/-- The cache-miss path of `SearchService.search`: run the pipeline, apply
filters when the filter dict is truthy, allocate fresh result objects on the
heap, cache the enriched reference list, and return its `top_k` slice with
`cache_hit=False`. -/
def svcMiss (pipeline : String → Int → List SRData) (st : SvcState) (now : Int)
    (q : String) (filters : List (String × JVal)) (topK : Int) :
    SvcResponse × SvcState :=
  let data := pipeline q topK
  let enriched := if filters.isEmpty then data else applyFilters data filters
  let refs := List.range' st.heap.length enriched.length
  ({ results := refs.take topK.toNat
     totalResults := refs.length
     retrievalMode := "hybrid"
     cacheHit := false },
   { cache := cacheSet st.cache now q refs filters topK
     heap := st.heap ++ enriched
     runs := st.runs + 1 })

/-- `SearchService.search`: cache lookup, Python-truthiness test of the
cached value, hit short-circuit (with `retrieval_mode="hybrid"` best guess),
otherwise the miss path.  `retrieval_mode` on the miss path is abstracted to
the hybrid label; no claim depends on it. -/
def svcSearch (pipeline : String → Int → List SRData) (st : SvcState) (now : Int)
    (q : String) (filters : List (String × JVal)) (topK : Int) :
    SvcResponse × SvcState :=
  let gr := cacheGet st.cache now q filters topK
  match gr.1 with
  | some rs =>
    if rs.isEmpty then
      svcMiss pipeline { st with cache := gr.2 } now q filters topK
    else
      ({ results := rs
         totalResults := rs.length
         retrievalMode := "hybrid"
         cacheHit := true },
       { st with cache := gr.2 })
  | none => svcMiss pipeline { st with cache := gr.2 } now q filters topK

/-! ## Dense retriever load (`VectorRetriever.load` in `retrieval/vector.py`)

`load(index_path, id_map_path)` raises `FileNotFoundError` when either file
is missing; otherwise it reads the FAISS index and the JSON sidecar and sets
`_chunk_ids` and `_embedding_dim` from the sidecar.  The embedding model is
an external collaborator; its output dimension appears below only in the
theorems, because `load` itself never consults it. -/

/-- The on-disk FAISS file, reduced to the shape data `load` can observe. -/
structure VecIndexFile where
  dim : ℕ
  count : ℕ
deriving DecidableEq

/-- The JSON sidecar `chunk_id_map.json` written by `save`. -/
structure VecIdMap where
  chunk_ids : List String
  embedding_dim : ℕ
  model_name : String
deriving DecidableEq

structure VectorState where
  modelName : String
  chunkIds : List String
  embeddingDim : ℕ
  hasIndex : Bool
deriving DecidableEq

/-- `VectorRetriever.load`: `none` stands for a missing file. -/
def vectorLoad (st : VectorState) (indexFile : Option VecIndexFile)
    (idMapFile : Option VecIdMap) : Except String VectorState :=
  match indexFile, idMapFile with
  | none, _ => .error "Index files not found"
  | some _, none => .error "Index files not found"
  | some _, some im =>
    .ok { st with
            hasIndex := true
            chunkIds := im.chunk_ids
            embeddingDim := im.embedding_dim }

/-- `VectorRetriever.is_ready`. -/
def vectorIsReady (st : VectorState) : Bool :=
  st.hasIndex && !st.chunkIds.isEmpty

def cxVecIx : VecIndexFile := { dim := 384, count := 2 }

def cxVecIm : VecIdMap :=
  { chunk_ids := ["c1", "c2"], embedding_dim := 384, model_name := "all-MiniLM-L6-v2" }

def cxVecSt0 : VectorState :=
  { modelName := "other-model", chunkIds := [], embeddingDim := 0, hasIndex := false }

/-! ### Concrete scenarios used by counterexamples and witnesses -/

def cxPipelineEmpty : String → Int → List SRData := fun _ _ => []

def cxFiltersAB : List (String × JVal) :=
  [("projects", .arr (JArr.ofList [.s "a", .s "b"]))]

def cxFiltersBA : List (String × JVal) :=
  [("projects", .arr (JArr.ofList [.s "b", .s "a"]))]

def cxFilters2 : List (String × JVal) :=
  [("projects", .arr (JArr.ofList [.s "a"])),
   ("source_types", .arr (JArr.ofList [.s "docs"]))]

def cxFilters2R : List (String × JVal) :=
  [("source_types", .arr (JArr.ofList [.s "docs"])),
   ("projects", .arr (JArr.ofList [.s "a"]))]

def cxC5a : CacheState ℕ := cacheSet (emptyCache ℕ 2 3600) 0 "a" 7 [] 10

def cxC5ag : Option ℕ × CacheState ℕ := cacheGet cxC5a 0 "a" [] 10

def cxC5b : CacheState ℕ := cacheSet cxC5ag.2 0 "b" 8 [] 10

def cxC5c : CacheState ℕ := cacheSet cxC5b 0 "c" 9 [] 10

/-- Python `str.split()` with no arguments on a character list: splits on runs of
whitespace and drops empty pieces (fuel-based; any fuel at least the list length is exact).
Used by `_highlight_snippet` for `content.split()` and `query.lower().split()`. -/
def splitWsF : ℕ → List Char → List (List Char)
  | 0, _ => []
  | _ + 1, [] => []
  | f + 1, c :: cs =>
    if c.isWhitespace then splitWsF f cs
    else (c :: cs.takeWhile (fun x => !x.isWhitespace)) ::
      splitWsF f (cs.dropWhile (fun x => !x.isWhitespace))

/-- Python `s.split()` at exactly enough fuel. -/
def splitWs (l : List Char) : List (List Char) := splitWsF l.length l

/-- Membership in the strip set of the Python rstrip call: the characters `.,;:`. -/
def isSnippetPunct (c : Char) : Bool := c == '.' || c == ',' || c == ';' || c == ':'

/-- The window-scoring normalisation `w.lower().rstrip` with strip set `.,;:` from
`_highlight_snippet`: lowercase the word, then strip trailing punctuation. -/
def wNorm (w : List Char) : List Char :=
  (((w.map Char.toLower).reverse.dropWhile isSnippetPunct)).reverse

/-- The per-window score: the number of window words whose normalisation lies in
`query_terms`; membership in the Python set is membership in the list of its elements. -/
def windowScore (terms : List (List Char)) (window : List (List Char)) : ℕ :=
  window.countP (fun w => terms.contains (wNorm w))

/-- The `best_start` loop of `_highlight_snippet`: scan every start index,
keep the first window whose score strictly exceeds the best so far (window size 50). -/
def bestStart (terms : List (List Char)) (words : List (List Char)) : ℕ :=
  ((List.range words.length).foldl
    (fun acc i =>
      let sc := windowScore terms ((words.drop i).take 50)
      if acc.1 < sc then (sc, i) else acc)
    ((0 : ℕ), (0 : ℕ))).2

/-- Python join of the words with a single space separator. -/
def joinWords : List (List Char) → List Char
  | [] => []
  | [w] => w
  | w :: x :: ws => w ++ ' ' :: joinWords (x :: ws)

/-- The three-dot ellipsis appended and prepended by `_highlight_snippet`. -/
def dots : List Char := ['.', '.', '.']

/-- The snippet `_highlight_snippet` builds before term highlighting: the joined
50-word best window, truncated to 300 characters plus an ellipsis if longer, with an
ellipsis prepended when the window does not start at the first word and appended
when it does not reach the last word (`max_length = 300`, `window_size = 50`). -/
def snippetCore (content query : String) : List Char :=
  let terms := splitWs (query.toList.map Char.toLower)
  let words := splitWs content.toList
  let bs := bestStart terms words
  let snip0 := joinWords ((words.drop bs).take 50)
  let snip1 := if 300 < snip0.length then snip0.take 300 ++ dots else snip0
  let snip2 := if 0 < bs then dots ++ snip1 else snip1
  if bs + 50 < words.length then snip2 ++ dots else snip2

/-- Word character for the regex `\\b` boundary: `[a-zA-Z0-9_]` (ASCII idealisation
of Python `\\w`). -/
def isWordChar (c : Char) : Bool := c.isAlphanum || c == '_'

/-- Whether an optional character (None at the string edge) is a word character. -/
def wordOpt : Option Char → Bool
  | some c => isWordChar c
  | none => false

/-- Regex word boundary `\\b` between two adjacent positions: exactly one side is a
word character. -/
def bnd (p q : Option Char) : Bool := wordOpt p != wordOpt q

/-- Case-insensitive literal match of term `t` at the head of `s`
(`re.IGNORECASE` with the escaped literal `re.escape(term)`). -/
def matchCI (t s : List Char) : Bool :=
  (s.take t.length).map Char.toLower == t.map Char.toLower

/-- Whether the pattern `\\b(term)\\b` matches at the current scan position, where
`prev` is the original character just before the position. -/
def matchAt (t : List Char) (prev : Option Char) (s : List Char) : Bool :=
  bnd prev s.head? && (matchCI t s &&
    bnd ((s.take t.length).getLast?) ((s.drop t.length).head?))

/-- The literal `<mark>` inserted by the highlight replacement. -/
def openTag : List Char := ['<', 'm', 'a', 'r', 'k', '>']

/-- The literal `</mark>` inserted by the highlight replacement. -/
def closeTag : List Char := ['<', '/', 'm', 'a', 'r', 'k', '>']

/-- One pass of the pattern substitution over the snippet: scan left to right; at a
match emit `<mark>`, the matched text verbatim, `</mark>`, and resume after the match
(the boundary context stays the original matched character, as re.sub reads the
source string); otherwise copy one character. Fuel-based; fuel `s.length` is exact
for nonempty terms. -/
def subGoF (t : List Char) : ℕ → Option Char → List Char → List Char
  | 0, _, s => s
  | _ + 1, _, [] => []
  | f + 1, prev, c :: cs =>
    if matchAt t prev (c :: cs) then
      openTag ++ (c :: cs).take t.length ++ closeTag ++
        subGoF t f (((c :: cs).take t.length).getLast?) ((c :: cs).drop t.length)
    else c :: subGoF t f (some c) cs

/-- Python re.sub of the word-bounded, case-insensitive escaped literal term, with the
replacement inserting `<mark>` and `</mark>` around the matched text. -/
def pySubTerm (t s : List Char) : List Char := subGoF t s.length none s

/-- Deduplication keeping first occurrences, with an accumulator of seen words. -/
def firstDedupAux : List (List Char) → List (List Char) → List (List Char)
  | _, [] => []
  | seen, x :: xs =>
    if seen.contains x then firstDedupAux seen xs
    else x :: firstDedupAux (x :: seen) xs

/-- The Python set `set(query.lower().split())` as the list of distinct terms;
the set's iteration order is determinised to first occurrence (the properties proved
below hold for every order). -/
def firstDedup (l : List (List Char)) : List (List Char) := firstDedupAux [] l

/-- SearchService._highlight_snippet (api/service.py): build the snippet, then run
the `<mark>` substitution once per distinct query term. -/
def highlightSnippet (content query : String) : String :=
  let terms := firstDedup (splitWs (query.toList.map Char.toLower))
  String.mk (terms.foldl (fun s t => pySubTerm t s) (snippetCore content query))

/-- Whether the first list is an initial segment of the second. -/
def leadsWith : List Char → List Char → Bool
  | [], _ => true
  | _ :: _, [] => false
  | a :: as, b :: bs => a == b && leadsWith as bs

/-- Number of occurrences of `pat` in a character list (count of positions where it
starts). -/
def countOcc (pat : List Char) : List Char → ℕ
  | [] => 0
  | c :: cs => (if leadsWith pat (c :: cs) then 1 else 0) + countOcc pat cs


/-- Strings interleaving angle-free plain characters with `n` complete `<mark>` and
`m` complete `</mark>` tags; the invariant preserved by the highlight substitutions. -/
inductive TagStruct : List Char → ℕ → ℕ → Prop
  | nil : TagStruct [] 0 0
  | ch {l : List Char} {n m : ℕ} (c : Char) (h1 : c ≠ '<') (h2 : c ≠ '>') :
      TagStruct l n m → TagStruct (c :: l) n m
  | op {l : List Char} {n m : ℕ} : TagStruct l n m → TagStruct (openTag ++ l) (n + 1) m
  | cl {l : List Char} {n m : ℕ} : TagStruct l n m → TagStruct (closeTag ++ l) n (m + 1)

/-! ## Theorems -/
theorem pySortByDesc_perm {α κ : Type} [LinearOrder κ] (key : α → κ) (l : List α) :
    (pySortByDesc key l).Perm l := by
  have h := (List.perm_insertionSort (pyKeyLe key) l.enum).map Prod.snd
  simpa [pySortByDesc, List.enum_map_snd] using h

theorem pySortByDesc_sorted {α κ : Type} [LinearOrder κ] (key : α → κ) (l : List α) :
    ((l.enum).insertionSort (pyKeyLe key)).Sorted (pyKeyLe key) :=
  List.sorted_insertionSort _ _

theorem pySortByDesc_eq_map {α κ : Type} [LinearOrder κ] (key : α → κ) (l : List α) :
    pySortByDesc key l = (pySortEnum key l).map Prod.snd := rfl

theorem pySortEnum_mem {α κ : Type} [LinearOrder κ] (key : α → κ) (l : List α)
    {i : ℕ} {x : α} (hp : (i, x) ∈ pySortEnum key l) :
    i < l.length ∧ x = l.getD i x := by
  have hmem : (i, x) ∈ l.enum :=
    (List.perm_insertionSort (pyKeyLe key) l.enum).mem_iff.mp hp
  obtain ⟨h1, h2⟩ := List.mem_enum hmem
  exact ⟨h1, by rw [List.getD_eq_getElem _ _ h1]; exact h2⟩

theorem pySortEnum_pairwise {α κ : Type} [LinearOrder κ] (key : α → κ) (l : List α) :
    (pySortEnum key l).Pairwise (pyKeyLe key) :=
  List.sorted_insertionSort _ _

theorem pairwise_and {α : Type} {R S : α → α → Prop} :
    ∀ {l : List α}, l.Pairwise R → l.Pairwise S → l.Pairwise (fun a b => R a b ∧ S a b)
  | [], _, _ => List.Pairwise.nil
  | _ :: _, List.Pairwise.cons hR hRs, List.Pairwise.cons hS hSs =>
    List.Pairwise.cons (fun b hb => ⟨hR b hb, hS b hb⟩) (pairwise_and hRs hSs)

/-- Sorted output has weakly descending keys. -/
theorem pySortByDesc_pairwise_ge {α κ : Type} [LinearOrder κ] (key : α → κ) (l : List α) :
    (pySortByDesc key l).Pairwise (fun x y => key y ≤ key x) := by
  rw [pySortByDesc_eq_map]
  rw [List.pairwise_map]
  refine (pySortEnum_pairwise key l).imp ?_
  rintro a b (h | ⟨h, _⟩)
  · exact le_of_lt h
  · exact le_of_eq h

/-- In the sorted enumerated output, a key tie forces the original positions
to be in strictly increasing order (stability). -/
theorem pySortEnum_pairwise_tie {α κ : Type} [LinearOrder κ] (key : α → κ) (l : List α) :
    (pySortEnum key l).Pairwise
      (fun a b => key a.2 = key b.2 → a.1 < b.1) := by
  have hnd : (pySortEnum key l).Pairwise (fun a b : ℕ × α => a.1 ≠ b.1) := by
    have h1 : (l.enum.map Prod.fst).Nodup := by
      simp [List.enum_map_fst, List.nodup_range]
    have h2 : List.Perm ((pySortEnum key l).map Prod.fst) (l.enum.map Prod.fst) :=
      (List.perm_insertionSort (pyKeyLe key) l.enum).map Prod.fst
    have h3 : ((pySortEnum key l).map Prod.fst).Nodup := h2.nodup_iff.mpr h1
    exact List.pairwise_map.mp h3
  refine (pairwise_and (pySortEnum_pairwise key l) hnd).imp ?_
  rintro a b ⟨hle | ⟨heq, hle⟩, hne⟩
  · intro h
    exact absurd (h ▸ hle) (lt_irrefl _)
  · intro _
    exact lt_of_le_of_ne hle hne

theorem upsertAdd_keys (l : List (String × ℚ)) (k : String) (v : ℚ) :
    (upsertAdd l k v).map Prod.fst = insKey (l.map Prod.fst) k := by
  induction l with
  | nil => simp [upsertAdd, insKey]
  | cons hd tl ih =>
    obtain ⟨k', v'⟩ := hd
    by_cases h : k' = k
    · subst h
      simp [upsertAdd, insKey]
    · have hne : ¬ (k = k') := fun hh => h hh.symm
      simp only [upsertAdd, if_neg h, List.map_cons, ih, insKey, List.mem_cons]
      by_cases hm : k ∈ tl.map Prod.fst
      · simp [hm, hne]
      · simp [hm, hne]

theorem rrfAccumFrom_keys (w kR : ℚ) :
    ∀ (R : List (String × ℚ)) (rank : ℕ) (scores : List (String × ℚ)),
      (rrfAccumFrom w kR rank R scores).map Prod.fst
        = dictKeysFrom (scores.map Prod.fst) (R.map Prod.fst)
  | [], _, _ => rfl
  | (cid, s) :: rest, rank, scores => by
    simp only [rrfAccumFrom, List.map_cons, dictKeysFrom]
    rw [rrfAccumFrom_keys w kR rest (rank + 1) _, upsertAdd_keys]

theorem dictKeysFrom_append (xs ys : List String) :
    ∀ acc, dictKeysFrom acc (xs ++ ys) = dictKeysFrom (dictKeysFrom acc xs) ys := by
  induction xs with
  | nil => intro acc; rfl
  | cons x xs ih =>
    intro acc
    simp only [List.cons_append, dictKeysFrom]
    exact ih (insKey acc x)

theorem rrfScores_keys (wB wV kR : ℚ) (B V : List (String × ℚ)) :
    (rrfScores wB wV kR B V).map Prod.fst
      = dictKeysFrom [] (B.map Prod.fst ++ V.map Prod.fst) := by
  simp [rrfScores, rrfAccumFrom_keys, dictKeysFrom_append]

theorem insKey_nodup {acc : List String} (h : acc.Nodup) (k : String) :
    (insKey acc k).Nodup := by
  unfold insKey
  by_cases hm : k ∈ acc
  · simpa [hm] using h
  · simp [hm, List.nodup_append, h]

theorem dictKeysFrom_nodup :
    ∀ (ks : List String) {acc : List String}, acc.Nodup → (dictKeysFrom acc ks).Nodup
  | [], _, h => h
  | k :: ks, _, h => dictKeysFrom_nodup ks (insKey_nodup h k)

theorem rrfScores_keys_nodup (wB wV kR : ℚ) (B V : List (String × ℚ)) :
    ((rrfScores wB wV kR B V).map Prod.fst).Nodup := by
  rw [rrfScores_keys]
  exact dictKeysFrom_nodup _ List.nodup_nil

theorem lookupScore_upsertAdd (l : List (String × ℚ)) (k : String) (v : ℚ) (x : String) :
    lookupScore (upsertAdd l k v) x = lookupScore l x + (if k = x then v else 0) := by
  induction l with
  | nil =>
    by_cases h : k = x <;> simp [upsertAdd, lookupScore, h]
  | cons hd tl ih =>
    obtain ⟨k', v'⟩ := hd
    by_cases h : k' = k
    · subst h
      by_cases hx : k' = x <;> simp [upsertAdd, lookupScore, hx]
    · by_cases hx : k' = x
      · subst hx
        have : ¬ (k = k') := fun hh => h hh.symm
        simp [upsertAdd, h, lookupScore, this]
      · simp [upsertAdd, h, lookupScore, hx, ih]

theorem lookupScore_rrfAccumFrom (w kR : ℚ) :
    ∀ (R : List (String × ℚ)) (rank : ℕ) (scores : List (String × ℚ)) (x : String),
      lookupScore (rrfAccumFrom w kR rank R scores) x
        = lookupScore scores x + w * sumOcc kR rank R x
  | [], rank, scores, x => by simp [rrfAccumFrom, sumOcc]
  | (cid, s) :: rest, rank, scores, x => by
    simp only [rrfAccumFrom, sumOcc]
    rw [lookupScore_rrfAccumFrom w kR rest (rank + 1), lookupScore_upsertAdd]
    by_cases h : cid = x
    · simp [h]; ring
    · simp [h]

theorem lookupScore_rrfScores (wB wV kR : ℚ) (B V : List (String × ℚ)) (x : String) :
    lookupScore (rrfScores wB wV kR B V) x
      = wB * sumOcc kR 1 B x + wV * sumOcc kR 1 V x := by
  simp [rrfScores, lookupScore_rrfAccumFrom, lookupScore]

theorem sumOcc_of_count_zero (kR : ℚ) :
    ∀ (L : List (String × ℚ)) (rank : ℕ) (x : String),
      occCount L x = 0 → sumOcc kR rank L x = 0
  | [], _, _, _ => rfl
  | (cid, s) :: rest, rank, x, h => by
    by_cases hc : cid = x
    · exfalso
      simp [occCount, List.filter, hc] at h
    · have hrest : occCount rest x = 0 := by
        simpa [occCount, List.filter, hc] using h
      simp [sumOcc, hc, sumOcc_of_count_zero kR rest (rank + 1) x hrest]

theorem sumOcc_of_count_one (kR : ℚ) :
    ∀ (L : List (String × ℚ)) (rank : ℕ) (x : String),
      occCount L x = 1 →
      sumOcc kR rank L x = 1 / (kR + (rank + (L.map Prod.fst).indexOf x)) := by
  intro L
  induction L with
  | nil => intro rank x h; simp [occCount] at h
  | cons hd rest ih =>
    intro rank x h
    obtain ⟨cid, s⟩ := hd
    by_cases hc : cid = x
    · subst hc
      have hrest : occCount rest cid = 0 := by
        have h' := h
        simp [occCount, List.filter] at h'
        simpa [occCount] using h'
      have hz := sumOcc_of_count_zero kR rest (rank + 1) cid hrest
      simp [sumOcc, List.indexOf_cons_self, hz]
    · have hrest : occCount rest x = 1 := by
        simpa [occCount, List.filter, hc] using h
      have hidx : ((cid, s) :: rest).map Prod.fst = cid :: rest.map Prod.fst := rfl
      rw [hidx]
      rw [List.indexOf_cons_ne _ hc]
      have hrec := ih (rank + 1) x hrest
      rw [sumOcc, if_neg hc, hrec, zero_add]
      push_cast
      ring_nf

theorem pySortEnum_fst_indexOf {β κ : Type} [LinearOrder κ] (key : (String × β) → κ)
    (es : List (String × β)) (hnd : (es.map Prod.fst).Nodup)
    {a : ℕ × (String × β)} (ha : a ∈ pySortEnum key es) :
    (es.map Prod.fst).indexOf a.2.1 = a.1 := by
  obtain ⟨i, x⟩ := a
  obtain ⟨hlt, hx⟩ := pySortEnum_mem key es ha
  have hx' : x = es[i] := by rw [hx]; exact List.getD_eq_getElem es x hlt
  have hlt' : i < (es.map Prod.fst).length := by simpa using hlt
  have hmf : (es.map Prod.fst)[i] = x.1 := by
    rw [List.getElem_map]
    rw [← hx']
  calc (es.map Prod.fst).indexOf x.1
      = (es.map Prod.fst).indexOf (es.map Prod.fst)[i] := by rw [hmf]
    _ = i := List.indexOf_getElem hnd i hlt'

/-- C1 (amended): the fused output is sorted by weakly descending RRF score;
entries with equal scores appear in the insertion order of the `scores` dict,
whose key order is: chunk ids of the BM25 list first (in BM25 rank order),
then chunk ids seen only in the vector list (in vector rank order). -/
theorem rrf_fused_insertion_order (wB wV kR : ℚ) (B V : List (String × ℚ)) (topK : ℕ) :
    (rrfFused wB wV kR B V topK).length ≤ topK ∧
    (rrfFused wB wV kR B V topK).Pairwise (fun x y => y.2 ≤ x.2) ∧
    (rrfFused wB wV kR B V topK).Pairwise (fun x y => x.2 = y.2 →
      ((rrfScores wB wV kR B V).map Prod.fst).indexOf x.1
        < ((rrfScores wB wV kR B V).map Prod.fst).indexOf y.1) ∧
    (rrfScores wB wV kR B V).map Prod.fst
      = dictKeysFrom [] (B.map Prod.fst ++ V.map Prod.fst) := by
  refine ⟨List.length_take_le _ _, ?_, ?_, rrfScores_keys wB wV kR B V⟩
  · exact ((pySortByDesc_pairwise_ge Prod.snd _).sublist (List.take_sublist _ _))
  · have hnd := rrfScores_keys_nodup wB wV kR B V
    have h1 : (pySortByDesc Prod.snd (rrfScores wB wV kR B V)).Pairwise
        (fun x y => x.2 = y.2 →
          ((rrfScores wB wV kR B V).map Prod.fst).indexOf x.1
            < ((rrfScores wB wV kR B V).map Prod.fst).indexOf y.1) := by
      rw [pySortByDesc_eq_map, List.pairwise_map]
      refine (pySortEnum_pairwise_tie Prod.snd _).imp_of_mem ?_
      intro a b ha hb h heq
      rw [pySortEnum_fst_indexOf Prod.snd _ hnd ha, pySortEnum_fst_indexOf Prod.snd _ hnd hb]
      exact h heq
    exact h1.sublist (List.take_sublist _ _)

/-- C1 (counterexample): with `B = [("b", 1)]` and `V = [("a", 1)]` and the
default fuser parameters, both chunks get the same RRF score `1/122`, but the
code emits `"b"` (inserted first, from the BM25 list) before `"a"`, whereas
the spec's tie-break chain demands `"a"` first (equal presence, equal min
rank, ascending chunk id). -/
theorem rrf_spec_tiebreak_cx :
    ¬ specRrfOrdered cxB1 cxV1 (rrfFusedDefault cxB1 cxV1 2) := by
  have hne : ("b" : String) ≠ "a" := by decide
  have hscores : rrfScores (1/2) (1/2) 60 cxB1 cxV1
      = [("b", (122:ℚ)⁻¹), ("a", (122:ℚ)⁻¹)] := by
    simp [rrfScores, rrfAccumFrom, upsertAdd, cxB1, cxV1, hne]
    norm_num
  have hc : pyKeyLe (Prod.snd : String × ℚ → ℚ)
      (0, ("b", (122:ℚ)⁻¹)) (1, ("a", (122:ℚ)⁻¹)) := Or.inr ⟨rfl, by norm_num⟩
  have hsort : pySortByDesc (Prod.snd : String × ℚ → ℚ)
      [("b", (122:ℚ)⁻¹), ("a", (122:ℚ)⁻¹)]
      = [("b", (122:ℚ)⁻¹), ("a", (122:ℚ)⁻¹)] := by
    simp [pySortByDesc, pySortEnum, List.enum, List.enumFrom, List.insertionSort,
      List.orderedInsert, hc]
  have hfused : rrfFusedDefault cxB1 cxV1 2
      = [("b", (122:ℚ)⁻¹), ("a", (122:ℚ)⁻¹)] := by
    simp only [rrfFusedDefault, rrfFused, hscores, hsort]
    rfl
  intro h
  rw [specRrfOrdered, hfused] at h
  have hrel := List.rel_of_pairwise_cons h (List.mem_singleton.mpr rfl)
  rcases hrel with hlt | ⟨_, htie⟩
  · exact absurd hlt (lt_irrefl _)
  · exact absurd htie (by decide)

/-- Helper facts about the default fuser parameters. -/
theorem q_half_nonneg : (0 : ℚ) ≤ 1/2 := by norm_num

theorem q_sixty_pos : (0 : ℚ) < 60 := by norm_num

/-- C9: holding one input list fixed, if a document occurs exactly once in
the other list and its 1-based rank there improves, its accumulated RRF
score (the `scores[d]` the fuser sorts by) does not decrease.  Both
directions (vector improves, BM25 improves) are covered. -/
theorem rrf_monotone_rank_improves (wB wV kR : ℚ)
    (hwB : 0 ≤ wB) (hwV : 0 ≤ wV) (hk : 0 < kR) :
    (∀ (B V V' : List (String × ℚ)) (d : String),
      occCount V d = 1 → occCount V' d = 1 → keyRank1 V' d ≤ keyRank1 V d →
      lookupScore (rrfScores wB wV kR B V) d
        ≤ lookupScore (rrfScores wB wV kR B V') d) ∧
    (∀ (B B' V : List (String × ℚ)) (d : String),
      occCount B d = 1 → occCount B' d = 1 → keyRank1 B' d ≤ keyRank1 B d →
      lookupScore (rrfScores wB wV kR B V) d
        ≤ lookupScore (rrfScores wB wV kR B' V) d) := by
  have key : ∀ (L L' : List (String × ℚ)) (d : String) (w : ℚ), 0 ≤ w →
      occCount L d = 1 → occCount L' d = 1 → keyRank1 L' d ≤ keyRank1 L d →
      w * sumOcc kR 1 L d ≤ w * sumOcc kR 1 L' d := by
    intro L L' d w hw hL hL' hrank
    rw [sumOcc_of_count_one kR L 1 d hL, sumOcc_of_count_one kR L' 1 d hL']
    refine mul_le_mul_of_nonneg_left ?_ hw
    have hidx : (L'.map Prod.fst).indexOf d ≤ (L.map Prod.fst).indexOf d := by
      have := hrank
      unfold keyRank1 at this
      omega
    have hpos : (0 : ℚ) < kR + ((1 : ℕ) + (L'.map Prod.fst).indexOf d) := by
      have : (0 : ℚ) ≤ ((1 : ℕ) + (L'.map Prod.fst).indexOf d : ℕ) := Nat.cast_nonneg _
      push_cast at this ⊢
      linarith
    refine one_div_le_one_div_of_le hpos ?_
    have : ((L'.map Prod.fst).indexOf d : ℚ) ≤ ((L.map Prod.fst).indexOf d : ℚ) := by
      exact_mod_cast hidx
    push_cast
    linarith
  constructor
  · intro B V V' d hV hV' hrank
    rw [lookupScore_rrfScores, lookupScore_rrfScores]
    exact add_le_add_left (key V V' d wV hwV hV hV' hrank) _
  · intro B B' V d hB hB' hrank
    rw [lookupScore_rrfScores, lookupScore_rrfScores]
    exact add_le_add_right (key B B' d wB hwB hB hB' hrank) _

/-- Witness for C9: chunk `"x"` moves from vector rank 2 to vector rank 1
with the BM25 list held fixed, and its fused score does not decrease. -/
theorem rrf_monotone_rank_improves_witness :
    occCount cxV9 "x" = 1 ∧ occCount cxV9' "x" = 1 ∧
    keyRank1 cxV9' "x" ≤ keyRank1 cxV9 "x" ∧
    lookupScore (rrfScores (1/2) (1/2) 60 cxB9 cxV9) "x"
      ≤ lookupScore (rrfScores (1/2) (1/2) 60 cxB9 cxV9') "x" :=
  ⟨by decide, by decide, by decide,
    (rrf_monotone_rank_improves (1/2) (1/2) 60 q_half_nonneg q_half_nonneg q_sixty_pos).1
      cxB9 cxV9 cxV9' "x" (by decide) (by decide) (by decide)⟩

theorem bm25Search_cases (st : BM25State) (query : String) (topK : ℕ) :
    bm25Search st query topK = [] ∨
      bm25Search st query topK = bm25Rank st (pyTokenize query) topK := by
  unfold bm25Search
  split
  · exact Or.inl rfl
  · split
    · exact Or.inl rfl
    · exact Or.inr rfl

theorem bm25Rank_length_le (st : BM25State) (qT : List String) (topK : ℕ) :
    (bm25Rank st qT topK).length ≤ topK := by
  unfold bm25Rank
  exact le_trans (List.length_filter_le _ _) (List.length_take_le _ _)

theorem bm25Rank_pos (st : BM25State) (qT : List String) (topK : ℕ) :
    ∀ p ∈ bm25Rank st qT topK, (0 : ℝ) < p.2 := by
  intro p hp
  unfold bm25Rank at hp
  exact of_decide_eq_true (List.mem_filter.mp hp).2

theorem bm25GetScores_length (st : BM25State) (q : List String) :
    (bm25GetScores st q).length = st.corpus.length := by
  simp [bm25GetScores]

theorem bm25Rank_pairwise (k1 b : ℝ) (chunks : List (String × String))
    (hnd : (chunks.map Prod.fst).Nodup) (qT : List String) (topK : ℕ) :
    (bm25Rank (bm25BuildIndex k1 b chunks) qT topK).Pairwise
      (fun x y => y.2 ≤ x.2 ∧ (x.2 = y.2 →
        (chunks.map Prod.fst).indexOf x.1 < (chunks.map Prod.fst).indexOf y.1)) := by
  set st := bm25BuildIndex k1 b chunks with hst
  have hlen : st.chunk_ids.length ≤ (bm25GetScores st qT).length := by
    rw [bm25GetScores_length]
    simp [hst, bm25BuildIndex]
  have hfst : (st.chunk_ids.zip (bm25GetScores st qT)).map Prod.fst = st.chunk_ids :=
    List.map_fst_zip _ _ hlen
  have hids : st.chunk_ids = chunks.map Prod.fst := rfl
  have hndz : ((st.chunk_ids.zip (bm25GetScores st qT)).map Prod.fst).Nodup := by
    rw [hfst, hids]
    exact hnd
  have hge := pySortByDesc_pairwise_ge (Prod.snd : String × ℝ → ℝ)
    (st.chunk_ids.zip (bm25GetScores st qT))
  have htie : (pySortByDesc Prod.snd (st.chunk_ids.zip (bm25GetScores st qT))).Pairwise
      (fun x y : String × ℝ => x.2 = y.2 →
        (chunks.map Prod.fst).indexOf x.1 < (chunks.map Prod.fst).indexOf y.1) := by
    rw [pySortByDesc_eq_map, List.pairwise_map]
    refine (pySortEnum_pairwise_tie Prod.snd _).imp_of_mem ?_
    intro a b ha hb h heq
    have hia := pySortEnum_fst_indexOf Prod.snd _ hndz ha
    have hib := pySortEnum_fst_indexOf Prod.snd _ hndz hb
    rw [hfst, hids] at hia hib
    rw [hia, hib]
    exact h heq
  have hcomb := pairwise_and hge htie
  unfold bm25Rank
  exact (hcomb.sublist (List.take_sublist _ _)).sublist (List.filter_sublist _)

theorem bm25Rank_empty_of_all_zero (st : BM25State) (qT : List String) (topK : ℕ)
    (hz : ∀ s ∈ bm25GetScores st qT, s = (0 : ℝ)) :
    bm25Rank st qT topK = [] := by
  unfold bm25Rank
  rw [List.filter_eq_nil_iff]
  intro p hp
  have hmem : p ∈ st.chunk_ids.zip (bm25GetScores st qT) := by
    have h1 : p ∈ pySortByDesc Prod.snd (st.chunk_ids.zip (bm25GetScores st qT)) :=
      (List.take_sublist _ _).mem hp
    exact (pySortByDesc_perm Prod.snd _).mem_iff.mp h1
  obtain ⟨c, s⟩ := p
  have hs : s ∈ bm25GetScores st qT := (List.of_mem_zip hmem).2
  have : s = 0 := hz s hs
  simp [this]

theorem bm25ScoreDoc_zero_of_no_vocab (st : BM25State) (qT : List String)
    (hv : ∀ t ∈ qT, ¬ bm25InVocab st t) (d : List String) :
    bm25ScoreDoc st qT d = 0 := by
  unfold bm25ScoreDoc
  refine List.sum_eq_zero ?_
  intro x hx
  obtain ⟨t, ht, rfl⟩ := List.mem_map.mp hx
  unfold bm25TermScore
  have hb : ¬ (st.corpus.any (fun doc => doc.contains t) = true) := hv t ht
  rw [if_neg hb]

/-- C2: for every built index and query, `search` returns at most `top_k`
pairs, every returned score is strictly positive, the output is sorted by
weakly descending score with score ties ordered by ascending document ordinal
(position in the input chunk list), and the output is empty whenever no query
token occurs in the index vocabulary. -/
theorem bm25_search_contract (k1 b : ℝ) (chunks : List (String × String))
    (query : String) (topK : ℕ) (hnd : (chunks.map Prod.fst).Nodup) :
    (bm25Search (bm25BuildIndex k1 b chunks) query topK).length ≤ topK ∧
    (∀ p ∈ bm25Search (bm25BuildIndex k1 b chunks) query topK, (0 : ℝ) < p.2) ∧
    (bm25Search (bm25BuildIndex k1 b chunks) query topK).Pairwise
      (fun x y => y.2 ≤ x.2 ∧ (x.2 = y.2 →
        (chunks.map Prod.fst).indexOf x.1 < (chunks.map Prod.fst).indexOf y.1)) ∧
    ((∀ t ∈ pyTokenize query, ¬ bm25InVocab (bm25BuildIndex k1 b chunks) t) →
      bm25Search (bm25BuildIndex k1 b chunks) query topK = []) := by
  rcases bm25Search_cases (bm25BuildIndex k1 b chunks) query topK with h | h
  · refine ⟨?_, ?_, ?_, ?_⟩ <;> rw [h] <;> simp
  · refine ⟨?_, ?_, ?_, ?_⟩ <;> rw [h]
    · exact bm25Rank_length_le _ _ _
    · exact bm25Rank_pos _ _ _
    · exact bm25Rank_pairwise k1 b chunks hnd _ _
    · intro hv
      refine bm25Rank_empty_of_all_zero _ _ _ ?_
      intro s hs
      obtain ⟨d, _, rfl⟩ := List.mem_map.mp hs
      exact bm25ScoreDoc_zero_of_no_vocab _ _ hv d

/-- Witness for C2: a two-document index and a query whose only token is out
of vocabulary; the search result is empty. -/
theorem bm25_search_contract_witness :
    (cxChunks2.map Prod.fst).Nodup ∧
    (∀ t ∈ pyTokenize "zz", ¬ bm25InVocab (bm25BuildIndex 1 1 cxChunks2) t) ∧
    bm25Search (bm25BuildIndex 1 1 cxChunks2) "zz" 5 = [] :=
  ⟨by decide, by decide,
    (bm25_search_contract 1 1 cxChunks2 "zz" 5 (by decide)).2.2.2 (by decide)⟩

/-- C3: `build(X); save; fresh.load; search(q, k)` returns exactly the same
list as `build(X); search(q, k)`: the loaded state coincides field-for-field
with the built state, including index readiness. -/
theorem bm25_load_build_roundtrip (k1 b : ℝ) (chunks : List (String × String))
    (query : String) (topK : ℕ) :
    bm25Search (bm25Load (bm25Save (bm25BuildIndex k1 b chunks))) query topK
      = bm25Search (bm25BuildIndex k1 b chunks) query topK := rfl

/-! ### Python string order: basic facts -/

theorem char_eq_of_toNat_eq {a b : Char} (h : a.toNat = b.toNat) : a = b := by
  rw [← Char.ofNat_toNat a, ← Char.ofNat_toNat b, h]

theorem string_eq_of_toList_eq {a b : String} (h : a.toList = b.toList) : a = b := by
  cases a
  cases b
  simp only [String.toList] at h
  rw [h]

theorem strLtB_asymm : ∀ {a b : List Char}, strLtB a b = true → strLtB b a = false
  | [], [], h => by simp [strLtB] at h
  | [], _ :: _, _ => by simp [strLtB]
  | _ :: _, [], h => by simp [strLtB] at h
  | a :: as, b :: bs, h => by
    by_cases h1 : a.toNat < b.toNat
    · have h2 : ¬ b.toNat < a.toNat := by omega
      simp [strLtB, h1, h2]
    · by_cases h2 : b.toNat < a.toNat
      · rw [strLtB, if_neg h1, if_pos h2] at h
        simp at h
      · rw [strLtB, if_neg h1, if_neg h2] at h
        rw [strLtB, if_neg h2, if_neg h1]
        exact strLtB_asymm h

theorem strLtB_resolve : ∀ (c a b : List Char),
    strLtB c a = true → strLtB c b = true ∨ strLtB b a = true
  | [], [], _, h => by simp [strLtB] at h
  | _ :: _, [], _, h => by simp [strLtB] at h
  | [], _ :: _, [], _ => Or.inr (by simp [strLtB])
  | [], _ :: _, _ :: _, _ => Or.inl (by simp [strLtB])
  | _ :: _, _ :: _, [], _ => Or.inr (by simp [strLtB])
  | z :: zs, x :: xs, y :: ys, h => by
    by_cases hzy : z.toNat < y.toNat
    · exact Or.inl (by rw [strLtB, if_pos hzy])
    · by_cases hyz : y.toNat < z.toNat
      · have hzx : z.toNat ≤ x.toNat := by
          by_cases hzx1 : z.toNat < x.toNat
          · omega
          · by_cases hxz : x.toNat < z.toNat
            · rw [strLtB, if_neg hzx1, if_pos hxz] at h
              simp at h
            · omega
        refine Or.inr ?_
        rw [strLtB, if_pos (by omega : y.toNat < x.toNat)]
      · by_cases hzx1 : z.toNat < x.toNat
        · refine Or.inr ?_
          rw [strLtB, if_pos (by omega : y.toNat < x.toNat)]
        · by_cases hxz : x.toNat < z.toNat
          · rw [strLtB, if_neg hzx1, if_pos hxz] at h
            simp at h
          · rw [strLtB, if_neg hzx1, if_neg hxz] at h
            rcases strLtB_resolve zs xs ys h with h' | h'
            · refine Or.inl ?_
              rw [strLtB, if_neg hzy, if_neg hyz]
              exact h'
            · refine Or.inr ?_
              rw [strLtB, if_neg (by omega : ¬ y.toNat < x.toNat),
                  if_neg (by omega : ¬ x.toNat < y.toNat)]
              exact h'

theorem strLtB_eq_of_both_false : ∀ (a b : List Char),
    strLtB a b = false → strLtB b a = false → a = b
  | [], [], _, _ => rfl
  | [], _ :: _, h, _ => by simp [strLtB] at h
  | _ :: _, [], _, h => by simp [strLtB] at h
  | a :: as, b :: bs, h1, h2 => by
    by_cases hab : a.toNat < b.toNat
    · rw [strLtB, if_pos hab] at h1
      simp at h1
    · by_cases hba : b.toNat < a.toNat
      · rw [strLtB, if_pos hba] at h2
        simp at h2
      · rw [strLtB, if_neg hab, if_neg hba] at h1
        rw [strLtB, if_neg hba, if_neg hab] at h2
        rw [char_eq_of_toNat_eq (by omega : a.toNat = b.toNat),
            strLtB_eq_of_both_false as bs h1 h2]

/-! ### Key sorting of `json.dumps(..., sort_keys=True)` -/

theorem fieldLe_total : ∀ a b : String × String, fieldLe a b ∨ fieldLe b a := by
  intro a b
  by_cases h : strLtB b.1.toList a.1.toList = true
  · right
    exact strLtB_asymm h
  · left
    unfold fieldLe
    simpa using h

theorem fieldLe_trans : ∀ a b c : String × String, fieldLe a b → fieldLe b c → fieldLe a c := by
  intro a b c hab hbc
  unfold fieldLe at *
  by_cases h : strLtB c.1.toList a.1.toList = true
  · rcases strLtB_resolve c.1.toList a.1.toList b.1.toList h with h' | h'
    · rw [hbc] at h'
      exact absurd h' (by simp)
    · rw [hab] at h'
      exact absurd h' (by simp)
  · simpa using h

theorem sortFields_perm (fs : List (String × String)) : (sortFields fs).Perm fs :=
  List.perm_insertionSort _ _

theorem sortFields_sorted (fs : List (String × String)) :
    List.Pairwise fieldLe (sortFields fs) := by
  haveI : IsTotal (String × String) fieldLe := ⟨fieldLe_total⟩
  haveI : IsTrans (String × String) fieldLe := ⟨fun a b c => fieldLe_trans a b c⟩
  exact List.sorted_insertionSort _ _

theorem sortFields_eq_of_perm (l l' : List (String × String))
    (hp : l.Perm l') (hnd : (l.map Prod.fst).Nodup) :
    sortFields l = sortFields l' := by
  haveI : IsAntisymm (String × String) fieldLt :=
    ⟨fun a b h1 h2 => by
      have h3 := strLtB_asymm h1
      unfold fieldLt at h2
      rw [h3] at h2
      exact absurd h2 (by simp)⟩
  have key : ∀ m : List (String × String), m.Perm l → List.Pairwise fieldLe m →
      List.Pairwise fieldLt m := by
    intro m hm hs
    have hndm : (m.map Prod.fst).Nodup := ((hm.map Prod.fst).nodup_iff).mpr hnd
    have hne : m.Pairwise (fun a b : String × String => a.1 ≠ b.1) :=
      List.pairwise_map.mp hndm
    refine (pairwise_and hs hne).imp ?_
    rintro a b ⟨hle, hneq⟩
    unfold fieldLe at hle
    unfold fieldLt
    by_cases h : strLtB a.1.toList b.1.toList = true
    · exact h
    · exfalso
      have h0 : strLtB a.1.toList b.1.toList = false := by simpa using h
      exact hneq (string_eq_of_toList_eq (strLtB_eq_of_both_false _ _ h0 hle))
  have h1 := key (sortFields l) (sortFields_perm l) (sortFields_sorted l)
  have h2 := key (sortFields l') ((sortFields_perm l').trans hp.symm) (sortFields_sorted l')
  exact List.eq_of_perm_of_sorted
    ((sortFields_perm l).trans (hp.trans (sortFields_perm l').symm)) h1 h2

theorem dumpFields_ofList : ∀ l : List (String × JVal),
    dumpFields (JObj.ofList l) = l.map (fun e => (e.1, dumpVal e.2))
  | [] => rfl
  | (k, v) :: tl => by
    simp [JObj.ofList, dumpFields, dumpFields_ofList tl]

theorem dumpVal_obj_congr3 (k1 k2 k3 : String) (v1 v2 v3 v2' : JVal)
    (h : dumpVal v2 = dumpVal v2') :
    dumpVal (.obj (JObj.ofList [(k1, v1), (k2, v2), (k3, v3)]))
      = dumpVal (.obj (JObj.ofList [(k1, v1), (k2, v2'), (k3, v3)])) := by
  simp only [dumpVal, JObj.ofList, dumpFields]
  rw [h]

/-- C4 (amended): the cache key is invariant under lowercasing/trimming of
the query and under reordering of the filter dict's keys; it is not
invariant under reordering the elements of a list-valued filter (list values
are serialised in order; see the counterexample). -/
theorem make_key_invariances :
    (∀ (q q' : String) (f : List (String × JVal)) (k : Int),
      pyStrip (pyLower q) = pyStrip (pyLower q') → makeKey q f k = makeKey q' f k) ∧
    (∀ (q : String) (f f' : List (String × JVal)) (k : Int),
      f.Perm f' → (f.map Prod.fst).Nodup → makeKey q f k = makeKey q f' k) := by
  constructor
  · intro q q' f k h
    unfold makeKey
    rw [h]
  · intro q f f' k hp hnd
    have hinner : dumpVal (.obj (JObj.ofList f)) = dumpVal (.obj (JObj.ofList f')) := by
      simp only [dumpVal]
      have hperm : (dumpFields (JObj.ofList f)).Perm (dumpFields (JObj.ofList f')) := by
        rw [dumpFields_ofList, dumpFields_ofList]
        exact hp.map _
      have hnd' : ((dumpFields (JObj.ofList f)).map Prod.fst).Nodup := by
        rw [dumpFields_ofList]
        simpa [List.map_map, Function.comp] using hnd
      rw [sortFields_eq_of_perm _ _ hperm hnd']
    exact dumpVal_obj_congr3 "query" "filters" "top_k"
      (.s (pyStrip (pyLower q))) (.obj (JObj.ofList f)) (.n k) (.obj (JObj.ofList f')) hinner

/-- C4 (counterexample): reordering the elements inside a list-valued filter
produces a different cache key, and a `get` whose filters differ from the
preceding `set` only in that order misses. -/
theorem make_key_list_order_cx :
    makeKey "q" cxFiltersAB 10 ≠ makeKey "q" cxFiltersBA 10 ∧
    (cacheGet (cacheSet (emptyCache (List ℕ) 100 3600) 0 "q" [1] cxFiltersAB 10)
        0 "q" cxFiltersBA 10).1 = none := by
  constructor
  · decide
  · decide

/-- Witness for C4: a query differing in case and surrounding whitespace, and
a filter dict with its two keys swapped, produce the same key. -/
theorem make_key_invariances_witness :
    pyStrip (pyLower "  RESTART Pod ") = pyStrip (pyLower "restart pod") ∧
    (cxFilters2R.map Prod.fst).Nodup ∧
    makeKey "  RESTART Pod " cxFilters2 10 = makeKey "restart pod" cxFilters2 10 ∧
    makeKey "odd" cxFilters2R 10 = makeKey "odd" cxFilters2 10 :=
  ⟨by decide, by decide,
    make_key_invariances.1 "  RESTART Pod " "restart pod" cxFilters2 10 (by decide),
    make_key_invariances.2 "odd" cxFilters2R cxFilters2 10 (List.Perm.swap _ _ _) (by decide)⟩

/-! ### LRU cache: supporting lemmas -/

theorem findEntry_none {α : Type} :
    ∀ (l : List (String × CEntry α)) (k : String), k ∉ l.map Prod.fst → findEntry l k = none
  | [], _, _ => rfl
  | (k', e) :: tl, k, h => by
    simp only [List.map_cons, List.mem_cons] at h
    push_neg at h
    rw [findEntry, if_neg (fun hh => h.1 hh.symm)]
    exact findEntry_none tl k h.2

theorem findEntry_upsert {α : Type} :
    ∀ (l : List (String × CEntry α)) (k : String) (e : CEntry α),
      findEntry (upsertEntry l k e) k = some e
  | [], k, e => by simp [upsertEntry, findEntry]
  | (k', e') :: tl, k, e => by
    by_cases h : k' = k
    · simp [upsertEntry, h, findEntry]
    · simp [upsertEntry, h, findEntry, findEntry_upsert tl k e]

theorem upsertEntry_append {α : Type} :
    ∀ (l : List (String × CEntry α)) (k : String) (e : CEntry α),
      k ∉ l.map Prod.fst → upsertEntry l k e = l ++ [(k, e)]
  | [], _, _, _ => rfl
  | (k', e') :: tl, k, e, h => by
    simp only [List.map_cons, List.mem_cons] at h
    push_neg at h
    rw [upsertEntry, if_neg (fun hh => h.1 hh.symm)]
    rw [upsertEntry_append tl k e h.2]
    simp

theorem upsertEntry_length_le {α : Type} :
    ∀ (l : List (String × CEntry α)) (k : String) (e : CEntry α),
      (upsertEntry l k e).length ≤ l.length + 1
  | [], _, _ => le_refl _
  | (k', e') :: tl, k, e => by
    by_cases h : k' = k
    · simp [upsertEntry, h]
    · simp only [upsertEntry, if_neg h, List.length_cons]
      have := upsertEntry_length_le tl k e
      omega

theorem eraseKey_length {α : Type} :
    ∀ (l : List (String × CEntry α)) (k : String),
      k ∈ l.map Prod.fst → (eraseKey l k).length + 1 = l.length
  | [], k, h => by simp at h
  | (k', e) :: tl, k, h => by
    by_cases hk : k' = k
    · simp [eraseKey, hk]
    · simp only [List.map_cons, List.mem_cons] at h
      have h2 : k ∈ tl.map Prod.fst := by
        rcases h with h | h
        · exact absurd h.symm hk
        · exact h
      simp only [eraseKey, if_neg hk, List.length_cons]
      have := eraseKey_length tl k h2
      omega

theorem evictLoopF_eq_of_lt {β : Type} (m : ℕ) :
    ∀ (fuel : ℕ) (l : List β), l.length < m → evictLoopF m fuel l = l
  | 0, _, _ => rfl
  | fuel + 1, l, h => by rw [evictLoopF, if_neg (by omega)]

theorem evictLoopF_tail {β : Type} (m : ℕ) (hm : 1 ≤ m) (l : List β) (hl : l.length = m) :
    evictLoopF m (l.length + 1) l = l.tail := by
  rw [hl]
  rw [evictLoopF, if_pos (by omega : m ≤ l.length)]
  exact evictLoopF_eq_of_lt m m l.tail (by simp [List.length_tail]; omega)

theorem evictLoopF_length_lt {β : Type} (m : ℕ) (hm : 1 ≤ m) :
    ∀ (fuel : ℕ) (l : List β), l.length < m + fuel → (evictLoopF m fuel l).length < m
  | 0, l, h => by simpa [evictLoopF] using h
  | fuel + 1, l, h => by
    rw [evictLoopF]
    by_cases hc : m ≤ l.length
    · rw [if_pos hc]
      refine evictLoopF_length_lt m hm fuel l.tail ?_
      simp only [List.length_tail]
      omega
    · rw [if_neg hc]
      omega

theorem cacheSet_size {α : Type} (st : CacheState α) (now : Int) (q : String) (res : α)
    (f : List (String × JVal)) (k : Int) (hm : 1 ≤ st.maxSize) :
    ((cacheSet st now q res f k).entries).length ≤ st.maxSize := by
  simp only [cacheSet]
  have h1 := evictLoopF_length_lt st.maxSize hm (st.entries.length + 1) st.entries (by omega)
  have h2 := upsertEntry_length_le
    (evictLoopF st.maxSize (st.entries.length + 1) st.entries)
    (makeKey q f k) { results := res, createdAt := now, hits := 0 }
  omega

theorem cacheGet_hit_shape {α : Type} (st : CacheState α) (now : Int) (q : String)
    (f : List (String × JVal)) (k : Int) (r : α)
    (h : (cacheGet st now q f k).1 = some r) :
    ∃ e : CEntry α, findEntry st.entries (makeKey q f k) = some e ∧ r = e.results ∧
      ((cacheGet st now q f k).2).entries
        = eraseKey st.entries (makeKey q f k)
            ++ [(makeKey q f k, { e with hits := e.hits + 1 })] ∧
      ((cacheGet st now q f k).2).maxSize = st.maxSize := by
  cases hf : findEntry st.entries (makeKey q f k) with
  | none =>
    simp only [cacheGet, hf] at h
    exact absurd h (by simp)
  | some e =>
    by_cases httl : st.ttl < now - e.createdAt
    · simp only [cacheGet, hf, if_pos httl] at h
      exact absurd h (by simp)
    · refine ⟨e, rfl, ?_, ?_, ?_⟩
      · simp only [cacheGet, hf, if_neg httl, Option.some.injEq] at h
        exact h.symm
      · simp only [cacheGet, hf, if_neg httl]
      · simp only [cacheGet, hf, if_neg httl]

theorem setMany_fresh_append {α : Type} (now : Int) (res : α)
    (f : List (String × JVal)) (k : Int) :
    ∀ (qs : List String) (st : CacheState α),
      ((st.entries.map Prod.fst) ++ qs.map (fun q => makeKey q f k)).Nodup →
      st.entries.length + qs.length ≤ st.maxSize →
      (setMany now res f k st qs).entries
        = st.entries ++ qs.map (fun q => (makeKey q f k, (⟨res, now, 0⟩ : CEntry α)))
          ∧ (setMany now res f k st qs).maxSize = st.maxSize
  | [], st, _, _ => by simp [setMany]
  | q :: qs, st, hnd, hlen => by
    rw [setMany]
    have hlt : st.entries.length < st.maxSize := by
      simp only [List.length_cons] at hlen
      omega
    have hfresh : makeKey q f k ∉ st.entries.map Prod.fst := by
      rw [List.map_cons, List.nodup_append] at hnd
      intro hmem
      exact hnd.2.2 hmem (List.mem_cons_self _ _)
    have hset : (cacheSet st now q res f k).entries
        = st.entries ++ [(makeKey q f k, (⟨res, now, 0⟩ : CEntry α))] := by
      simp only [cacheSet]
      rw [evictLoopF_eq_of_lt _ _ _ hlt, upsertEntry_append _ _ _ hfresh]
    have hmax : (cacheSet st now q res f k).maxSize = st.maxSize := rfl
    have hnd' : (((cacheSet st now q res f k).entries.map Prod.fst)
        ++ qs.map (fun q => makeKey q f k)).Nodup := by
      rw [hset]
      simp only [List.map_append, List.map_cons, List.map_nil, List.append_assoc]
      simpa using hnd
    have hlen' : (cacheSet st now q res f k).entries.length + qs.length
        ≤ (cacheSet st now q res f k).maxSize := by
      rw [hset, hmax]
      simp only [List.length_append, List.length_cons, List.length_nil] at *
      omega
    obtain ⟨ih1, ih2⟩ := setMany_fresh_append now res f k qs (cacheSet st now q res f k) hnd' hlen'
    constructor
    · rw [ih1, hset]
      simp
    · rw [ih2, hmax]

theorem lru_first_evicted {α : Type} (res : α) (f : List (String × JVal)) (k : Int)
    (now : Int) (m : ℕ) (hm : 1 ≤ m) (ttl : Int) (q0 qm : String) (rest : List String)
    (hlen : (q0 :: rest).length = m)
    (hnd : (((q0 :: rest) ++ [qm]).map (fun q => makeKey q f k)).Nodup) :
    (cacheGet (setMany now res f k (emptyCache α m ttl) ((q0 :: rest) ++ [qm]))
        now q0 f k).1 = none := by
  have hsplit : setMany now res f k (emptyCache α m ttl) ((q0 :: rest) ++ [qm])
      = cacheSet (setMany now res f k (emptyCache α m ttl) (q0 :: rest)) now qm res f k := by
    have : ∀ (xs ys : List String) (st : CacheState α),
        setMany now res f k st (xs ++ ys) = setMany now res f k (setMany now res f k st xs) ys := by
      intro xs
      induction xs with
      | nil => intro ys st; rfl
      | cons x xs ih =>
        intro ys st
        rw [List.cons_append, setMany, setMany, ih]
    rw [this (q0 :: rest) [qm] _]
    rfl
  have hndp : (((emptyCache α m ttl).entries.map Prod.fst)
      ++ (q0 :: rest).map (fun q => makeKey q f k)).Nodup := by
    simp only [emptyCache, List.map_nil, List.nil_append]
    have hsub : ((q0 :: rest).map (fun q => makeKey q f k)).Sublist
        (((q0 :: rest) ++ [qm]).map (fun q => makeKey q f k)) :=
      (List.sublist_append_left _ _).map _
    exact hnd.sublist hsub
  obtain ⟨hfill, hmax⟩ := setMany_fresh_append now res f k (q0 :: rest) (emptyCache α m ttl)
    hndp (by simp [emptyCache, hlen])
  set stm := setMany now res f k (emptyCache α m ttl) (q0 :: rest) with hstm
  have hentries : stm.entries
      = (q0 :: rest).map (fun q => (makeKey q f k, (⟨res, now, 0⟩ : CEntry α))) := by
    rw [hfill]
    simp [emptyCache]
  have hlenm : stm.entries.length = m := by
    rw [hentries]
    simpa using hlen
  have hmaxm : stm.maxSize = m := by
    rw [hmax]
    rfl
  -- the overflow set: evict the head (q0), then append the fresh key
  have hkeyfresh : makeKey qm f k ∉
      (evictLoopF stm.maxSize (stm.entries.length + 1) stm.entries).map Prod.fst := by
    rw [hmaxm, evictLoopF_tail m hm _ (by rw [hlenm]), hentries]
    simp only [List.map_cons, List.tail_cons, List.map_map]
    intro hmem
    have hmem' : makeKey qm f k ∈ (rest.map (fun q => makeKey q f k)) := by
      simpa [Function.comp] using hmem
    have : makeKey qm f k ∈ ((q0 :: rest).map (fun q => makeKey q f k)) :=
      List.mem_cons_of_mem _ hmem'
    rw [List.map_append, List.nodup_append] at hnd
    exact hnd.2.2 this (by simp)
  have hset : (cacheSet stm now qm res f k).entries
      = (evictLoopF stm.maxSize (stm.entries.length + 1) stm.entries)
          ++ [(makeKey qm f k, (⟨res, now, 0⟩ : CEntry α))] := by
    simp only [cacheSet]
    rw [upsertEntry_append _ _ _ hkeyfresh]
  rw [hsplit]
  -- q0's key is in neither the kept tail nor the appended fresh entry
  have hq0 : makeKey q0 f k ∉ ((cacheSet stm now qm res f k).entries).map Prod.fst := by
    rw [hset, hmaxm, evictLoopF_tail m hm _ (by rw [hlenm]), hentries]
    simp only [List.map_append, List.tail_cons, List.map_map, List.mem_append]
    rintro (hmem | hmem)
    · have hmem' : makeKey q0 f k ∈ (rest.map (fun q => makeKey q f k)) := by
        simpa [Function.comp] using hmem
      rw [List.map_append, List.map_cons, List.nodup_append] at hnd
      exact (List.nodup_cons.mp hnd.1).1 hmem'
    · simp only [List.map_cons, List.map_nil, List.mem_singleton] at hmem
      rw [List.map_append, List.nodup_append] at hnd
      have h1 : makeKey q0 f k ∈ (q0 :: rest).map (fun q => makeKey q f k) := by simp
      have h2 : makeKey q0 f k ∈ ([qm].map (fun q => makeKey q f k)) := by simp [hmem]
      exact hnd.2.2 h1 h2
  simp only [cacheGet]
  rw [findEntry_none _ _ hq0]

theorem lru_get_protects {α : Type} (st : CacheState α) (now now' : Int) (q q' : String)
    (f f' : List (String × JVal)) (k k' : Int) (res r : α)
    (hm : 2 ≤ st.maxSize) (hfull : st.entries.length = st.maxSize)
    (hhit : (cacheGet st now q f k).1 = some r)
    (hfresh : makeKey q' f' k' ∉ ((cacheGet st now q f k).2).entries.map Prod.fst) :
    makeKey q f k ∈
      ((cacheSet ((cacheGet st now q f k).2) now' q' res f' k').entries).map Prod.fst := by
  obtain ⟨e, hfind, hres, hentries, hmax⟩ := cacheGet_hit_shape st now q f k r hhit
  have hkmem : makeKey q f k ∈ st.entries.map Prod.fst := by
    by_contra hc
    rw [findEntry_none _ _ hc] at hfind
    exact Option.noConfusion hfind
  have herase := eraseKey_length st.entries (makeKey q f k) hkmem
  set st1 := (cacheGet st now q f k).2 with hst1
  have hlen1 : st1.entries.length = st.maxSize := by
    rw [hentries]
    simp only [List.length_append, List.length_cons, List.length_nil]
    omega
  rcases he : eraseKey st.entries (makeKey q f k) with _ | ⟨hd, tl⟩
  · exfalso
    rw [he] at herase
    simp at herase
    omega
  · simp only [cacheSet]
    rw [hmax, evictLoopF_tail st.maxSize (by omega) _ (by rw [hlen1])]
    have htail : st1.entries.tail
        = tl ++ [(makeKey q f k, { e with hits := e.hits + 1 })] := by
      rw [hentries, he]
      simp
    have hfresh' : makeKey q' f' k' ∉ (st1.entries.tail).map Prod.fst := by
      intro hmem
      exact hfresh (by
        have hsub : (st1.entries.tail).Sublist st1.entries := List.tail_sublist _
        exact (hsub.map Prod.fst).mem hmem)
    rw [upsertEntry_append _ _ _ hfresh', htail]
    simp

/-- C5 (amended): on a cache of capacity `max_size ≥ 1`: (1) after
`max_size + 1` `set` calls with distinct keys on a fresh cache, a `get` of
the first-inserted, never-accessed key misses (it was evicted as LRU);
(2) a key that is read via `get` while the cache holds `max_size ≥ 2`
entries survives the next overflowing `set` (the original claim that any
`get` between insert and overflow protects the key is refuted by the
counterexample: a key whose `get` precedes the later inserts can still reach
the LRU slot and be evicted); (3) `get` moves the hit entry to the
most-recently-used end; (4) after every `set` the size is at most
`max_size`. -/
theorem query_cache_lru_contract (α : Type) :
    (∀ (res : α) (f : List (String × JVal)) (k now : Int) (m : ℕ), 1 ≤ m →
      ∀ (ttl : Int) (q0 qm : String) (rest : List String),
        (q0 :: rest).length = m →
        (((q0 :: rest) ++ [qm]).map (fun q => makeKey q f k)).Nodup →
        (cacheGet (setMany now res f k (emptyCache α m ttl) ((q0 :: rest) ++ [qm]))
            now q0 f k).1 = none) ∧
    (∀ (st : CacheState α) (now now' : Int) (q q' : String)
        (f f' : List (String × JVal)) (k k' : Int) (res r : α),
      2 ≤ st.maxSize → st.entries.length = st.maxSize →
      (cacheGet st now q f k).1 = some r →
      makeKey q' f' k' ∉ ((cacheGet st now q f k).2).entries.map Prod.fst →
      makeKey q f k ∈
        ((cacheSet ((cacheGet st now q f k).2) now' q' res f' k').entries).map Prod.fst) ∧
    (∀ (st : CacheState α) (now : Int) (q : String) (f : List (String × JVal))
        (k : Int) (r : α),
      (cacheGet st now q f k).1 = some r →
      ∃ e : CEntry α, ((cacheGet st now q f k).2).entries
        = eraseKey st.entries (makeKey q f k)
            ++ [(makeKey q f k, { e with hits := e.hits + 1 })]) ∧
    (∀ (st : CacheState α) (now : Int) (q : String) (res : α)
        (f : List (String × JVal)) (k : Int), 1 ≤ st.maxSize →
      ((cacheSet st now q res f k).entries).length ≤ st.maxSize) := by
  refine ⟨?_, ?_, ?_, ?_⟩
  · intro res f k now m hm ttl q0 qm rest hlen hnd
    exact lru_first_evicted res f k now m hm ttl q0 qm rest hlen hnd
  · intro st now now' q q' f f' k k' res r hm hfull hhit hfresh
    exact lru_get_protects st now now' q q' f f' k k' res r hm hfull hhit hfresh
  · intro st now q f k r hhit
    obtain ⟨e, _, _, hentries, _⟩ := cacheGet_hit_shape st now q f k r hhit
    exact ⟨e, hentries⟩
  · intro st now q res f k hm
    exact cacheSet_size st now q res f k hm

/-- C5 (counterexample): capacity 2; key `"a"` is set, read via `get`, and
then two further distinct keys are set.  The claim says the accessed key is
retained, but the code evicts it: the later inserts make it
least-recently-used again before the overflow. -/
theorem lru_get_retention_cx :
    cxC5ag.1 = some 7 ∧ (cacheGet cxC5c 0 "a" [] 10).1 = none := by
  constructor
  · decide
  · decide

/-- Witness for C5: capacity 2, keys from queries "a","b","c"; the first key
misses after the third insert. -/
theorem query_cache_lru_contract_witness :
    ((("a" :: ["b"]) ++ ["c"]).map (fun q => makeKey q [] 10)).Nodup ∧
    (cacheGet (setMany 0 (0 : ℕ) [] 10 (emptyCache ℕ 2 3600) (("a" :: ["b"]) ++ ["c"]))
        0 "a" [] 10).1 = none :=
  ⟨by decide,
    (query_cache_lru_contract ℕ).1 0 [] 10 0 2 (by decide) 3600 "a" "c" ["b"]
      (by decide) (by decide)⟩

/-! ### Search orchestrator: supporting lemmas -/

theorem applyFilters_nil (f : List (String × JVal)) : applyFilters [] f = [] := by
  simp only [applyFilters]
  repeat' split
  all_goals simp [List.filter]

theorem svcSearch_of_not_truthy (pipeline : String → Int → List SRData)
    (st : SvcState) (now : Int) (q : String) (filters : List (String × JVal))
    (topK : Int)
    (hmiss : pyTruthyOptList (cacheGet st.cache now q filters topK).1 = false) :
    svcSearch pipeline st now q filters topK
      = svcMiss pipeline { st with cache := (cacheGet st.cache now q filters topK).2 }
          now q filters topK := by
  unfold svcSearch
  cases hg : (cacheGet st.cache now q filters topK).1 with
  | none => simp [hg]
  | some rs =>
    rw [hg] at hmiss
    simp only [pyTruthyOptList, Bool.not_eq_false'] at hmiss
    simp [hg, hmiss]

theorem cacheGet_found {α : Type} (st : CacheState α) (now : Int) (q : String)
    (f : List (String × JVal)) (k : Int) (e : CEntry α)
    (hf : findEntry st.entries (makeKey q f k) = some e)
    (httl : ¬ st.ttl < now - e.createdAt) :
    (cacheGet st now q f k).1 = some e.results := by
  simp only [cacheGet, hf, if_neg httl]

theorem cacheGet_ttl {α : Type} (st : CacheState α) (now : Int) (q : String)
    (f : List (String × JVal)) (k : Int) : ((cacheGet st now q f k).2).ttl = st.ttl := by
  simp only [cacheGet]
  cases findEntry st.entries (makeKey q f k) with
  | none => rfl
  | some e =>
    by_cases h : st.ttl < now - e.createdAt <;> simp [h]

theorem cacheSet_find {α : Type} (st : CacheState α) (now : Int) (q : String) (res : α)
    (f : List (String × JVal)) (k : Int) :
    findEntry (cacheSet st now q res f k).entries (makeKey q f k)
      = some { results := res, createdAt := now, hits := 0 } := by
  simp only [cacheSet]
  exact findEntry_upsert _ _ _

/-- C10: a request whose retrieval and enrichment produce an empty list still
inserts the empty list into the cache, but an identical request within TTL is
reported `cache_hit=false` and re-runs the pipeline, because the orchestrator
tests `if cached:` (truthiness) and the empty list is falsy. -/
theorem svc_empty_results_cached_but_never_hit
    (pipeline : String → Int → List SRData) (st : SvcState) (now : Int)
    (q : String) (filters : List (String × JVal)) (topK : Int)
    (hp : pipeline q topK = [])
    (hmiss : pyTruthyOptList (cacheGet st.cache now q filters topK).1 = false)
    (httl : 0 ≤ st.cache.ttl) :
    findEntry ((svcSearch pipeline st now q filters topK).2).cache.entries
        (makeKey q filters topK) = some ⟨[], now, 0⟩ ∧
    ((svcSearch pipeline st now q filters topK).1).cacheHit = false ∧
    ((svcSearch pipeline ((svcSearch pipeline st now q filters topK).2)
        now q filters topK).1).cacheHit = false ∧
    ((svcSearch pipeline ((svcSearch pipeline st now q filters topK).2)
        now q filters topK).2).runs = st.runs + 2 := by
  have h1 := svcSearch_of_not_truthy pipeline st now q filters topK hmiss
  have henr : (if filters.isEmpty then pipeline q topK
      else applyFilters (pipeline q topK) filters) = [] := by
    rw [hp, applyFilters_nil]
    simp
  -- shape of the first call: empty refs cached, miss response
  have hmiss1 : (svcSearch pipeline st now q filters topK).2.cache
      = cacheSet ((cacheGet st.cache now q filters topK).2) now q [] filters topK := by
    rw [h1]
    simp only [svcMiss, henr]
    simp [List.range']
  have hruns1 : (svcSearch pipeline st now q filters topK).2.runs = st.runs + 1 := by
    rw [h1]
    simp [svcMiss]
  have hhit1 : ((svcSearch pipeline st now q filters topK).1).cacheHit = false := by
    rw [h1]
    simp [svcMiss]
  have hfind1 : findEntry ((svcSearch pipeline st now q filters topK).2).cache.entries
      (makeKey q filters topK) = some ⟨[], now, 0⟩ := by
    rw [hmiss1]
    exact cacheSet_find _ _ _ _ _ _
  refine ⟨hfind1, hhit1, ?_, ?_⟩
  all_goals
    set st1 := (svcSearch pipeline st now q filters topK).2 with hst1
    have httl1 : ¬ st1.cache.ttl < now - (⟨[], now, 0⟩ : CEntry (List ℕ)).createdAt := by
      have hpres : st1.cache.ttl = st.cache.ttl := by
        rw [hst1, hmiss1]
        exact cacheGet_ttl st.cache now q filters topK
      rw [hpres]
      simp
      omega
    have hget2 : (cacheGet st1.cache now q filters topK).1 = some [] :=
      cacheGet_found _ _ _ _ _ _ hfind1 httl1
    have hmiss2 : pyTruthyOptList (cacheGet st1.cache now q filters topK).1 = false := by
      rw [hget2]
      rfl
    have h2 := svcSearch_of_not_truthy pipeline st1 now q filters topK hmiss2
  · rw [h2]
    simp [svcMiss]
  · rw [h2]
    simp only [svcMiss]
    rw [hruns1]

def cxSR : SRData :=
  { chunkId := "c1", title := "T", snippet := "original snippet", url := "u",
    sourceType := "docs", project := "p", finalScore := 1 }

def cxSRmut : SRData :=
  { chunkId := "c1", title := "T", snippet := "mutated snippet", url := "u",
    sourceType := "docs", project := "p", finalScore := 1 }

def cxPipeline8 : String → Int → List SRData := fun _ _ => [cxSR]

def cxSvc0 : SvcState := { cache := emptyCache (List ℕ) 100 3600, heap := [], runs := 0 }

def cxSvc1 : SvcResponse × SvcState := svcSearch cxPipeline8 cxSvc0 0 "q" [] 10

def cxSvcMut : SvcState := { cxSvc1.2 with heap := cxSvc1.2.heap.set 0 cxSRmut }

def cxSvc2 : SvcResponse × SvcState := svcSearch cxPipeline8 cxSvcMut 0 "q" [] 10

/-- C8 (counterexample): the first search returns the object reference `0`
and caches the same reference; after the caller mutates that object, the
second identical request is a cache hit whose result objects read back the
mutated data, not the originally computed list — the cache stored no deep
copy. -/
theorem svc_cache_poisoned_by_mutation_cx :
    cxSvc1.1.results = [0] ∧
    readRefs cxSvc1.2.heap cxSvc1.1.results = [some cxSR] ∧
    cxSvc2.1.cacheHit = true ∧
    readRefs cxSvc2.2.heap cxSvc2.1.results = [some cxSRmut] ∧
    cxSRmut ≠ cxSR := by
  refine ⟨by decide, by decide, by decide, by decide, by decide⟩

/-- C8 (amended): on a cache miss, `search` caches exactly the reference list
whose `top_k` prefix it returns: the cached entry and the returned results
are the same objects (no deep copy), so mutating any returned object changes
what a subsequent read of the cached entry observes. -/
theorem svc_cache_aliases_results
    (pipeline : String → Int → List SRData) (st : SvcState) (now : Int)
    (q : String) (filters : List (String × JVal)) (topK : Int)
    (hmiss : pyTruthyOptList (cacheGet st.cache now q filters topK).1 = false) :
    ∃ refs : List ℕ,
      findEntry ((svcSearch pipeline st now q filters topK).2).cache.entries
          (makeKey q filters topK) = some ⟨refs, now, 0⟩ ∧
      (svcSearch pipeline st now q filters topK).1.results = refs.take topK.toNat ∧
      (∀ r ∈ (svcSearch pipeline st now q filters topK).1.results, r ∈ refs) ∧
      (∀ (r : ℕ) (w v : SRData),
        r ∈ refs →
        ((svcSearch pipeline st now q filters topK).2).heap.get? r = some w →
        v ≠ w →
        readRefs (((svcSearch pipeline st now q filters topK).2).heap.set r v) refs
          ≠ readRefs ((svcSearch pipeline st now q filters topK).2).heap refs) := by
  have h1 := svcSearch_of_not_truthy pipeline st now q filters topK hmiss
  set enriched := (if filters.isEmpty then pipeline q topK
    else applyFilters (pipeline q topK) filters) with hen
  refine ⟨List.range' st.heap.length enriched.length, ?_, ?_, ?_, ?_⟩
  · rw [h1]
    simp only [svcMiss]
    exact cacheSet_find _ _ _ _ _ _
  · rw [h1]
    simp [svcMiss]
  · intro r hr
    rw [h1] at hr
    simp only [svcMiss] at hr
    exact (List.take_sublist _ _).mem hr
  · intro r w v hr hw hv heq
    obtain ⟨j, hj, hji⟩ := List.mem_iff_getElem.mp hr
    have hw' : ((svcSearch pipeline st now q filters topK).2).heap[r]? = some w := by
      rw [← List.get?_eq_getElem?]
      exact hw
    obtain ⟨hlt, hwEq⟩ := List.getElem?_eq_some.mp hw'
    have hcong := congrArg (fun l => l[j]?) heq
    simp only [readRefs, List.getElem?_map] at hcong
    rw [List.getElem?_eq_getElem hj, hji] at hcong
    simp only [Option.map_some'] at hcong
    rw [hw, List.get?_eq_getElem?, List.getElem?_set_self hlt] at hcong
    exact hv (Option.some.inj (Option.some.inj hcong))

/-- Witness for C10: an empty-corpus pipeline; the second identical request
is reported `cache_hit=false` and the pipeline has run twice. -/
theorem svc_empty_results_witness :
    pyTruthyOptList (cacheGet cxSvc0.cache 0 "q" [] 10).1 = false ∧
    (0 : Int) ≤ cxSvc0.cache.ttl ∧
    ((svcSearch cxPipelineEmpty ((svcSearch cxPipelineEmpty cxSvc0 0 "q" [] 10).2)
        0 "q" [] 10).1).cacheHit = false ∧
    ((svcSearch cxPipelineEmpty ((svcSearch cxPipelineEmpty cxSvc0 0 "q" [] 10).2)
        0 "q" [] 10).2).runs = cxSvc0.runs + 2 :=
  ⟨by decide, by decide,
   (svc_empty_results_cached_but_never_hit cxPipelineEmpty cxSvc0 0 "q" [] 10 rfl
      (by decide) (by decide)).2.2.1,
   (svc_empty_results_cached_but_never_hit cxPipelineEmpty cxSvc0 0 "q" [] 10 rfl
      (by decide) (by decide)).2.2.2⟩

/-- Witness for C8: a fresh service state and a one-result pipeline; the
cached entry aliases the returned references. -/
theorem svc_cache_aliases_results_witness :
    pyTruthyOptList (cacheGet cxSvc0.cache 0 "qa" [] 10).1 = false ∧
    (∃ refs : List ℕ,
      findEntry ((svcSearch cxPipeline8 cxSvc0 0 "qa" [] 10).2).cache.entries
          (makeKey "qa" [] 10) = some ⟨refs, 0, 0⟩ ∧
      (svcSearch cxPipeline8 cxSvc0 0 "qa" [] 10).1.results = refs.take (10 : Int).toNat ∧
      (∀ r ∈ (svcSearch cxPipeline8 cxSvc0 0 "qa" [] 10).1.results, r ∈ refs) ∧
      (∀ (r : ℕ) (w v : SRData),
        r ∈ refs →
        ((svcSearch cxPipeline8 cxSvc0 0 "qa" [] 10).2).heap.get? r = some w →
        v ≠ w →
        readRefs (((svcSearch cxPipeline8 cxSvc0 0 "qa" [] 10).2).heap.set r v) refs
          ≠ readRefs ((svcSearch cxPipeline8 cxSvc0 0 "qa" [] 10).2).heap refs)) :=
  ⟨by decide, svc_cache_aliases_results cxPipeline8 cxSvc0 0 "qa" [] 10 (by decide)⟩

/-- C7 (counterexample): a sidecar recording dimension 384 loads successfully
into a retriever whose embedding model produces 768-dimensional vectors, and
the retriever reports ready — `load` performs no dimension comparison, so it
does not refuse the incompatible index. -/
theorem vector_load_dim_mismatch_cx :
    cxVecIm.embedding_dim ≠ 768 ∧
    vectorLoad cxVecSt0 (some cxVecIx) (some cxVecIm)
      = .ok { modelName := "other-model", chunkIds := ["c1", "c2"],
              embeddingDim := 384, hasIndex := true } ∧
    vectorIsReady { modelName := "other-model", chunkIds := ["c1", "c2"],
                    embeddingDim := 384, hasIndex := true } = true := by
  refine ⟨by decide, rfl, by decide⟩

/-- C7 (amended): `VectorRetriever.load` fails (with `FileNotFoundError`)
exactly when one of the two files is missing; otherwise it loads
unconditionally — it takes `chunk_ids` and `embedding_dim` from the sidecar,
becomes ready whenever the sidecar's chunk list is nonempty, and performs no
comparison with the current model's output dimension, accepting even a
mismatched index. -/
theorem vector_load_no_dim_check (st : VectorState) (ix : VecIndexFile) (im : VecIdMap) :
    vectorLoad st none (some im) = .error "Index files not found" ∧
    vectorLoad st (some ix) none = .error "Index files not found" ∧
    (∀ modelDim : ℕ, im.embedding_dim ≠ modelDim →
      vectorLoad st (some ix) (some im)
        = .ok { modelName := st.modelName, chunkIds := im.chunk_ids,
                embeddingDim := im.embedding_dim, hasIndex := true }) ∧
    (∀ stLoaded : VectorState,
      vectorLoad st (some ix) (some im) = .ok stLoaded →
      vectorIsReady stLoaded = !im.chunk_ids.isEmpty) := by
  refine ⟨rfl, rfl, fun _ _ => rfl, ?_⟩
  intro stLoaded h
  have heq : stLoaded = { modelName := st.modelName, chunkIds := im.chunk_ids,
                          embeddingDim := im.embedding_dim, hasIndex := true } := by
    simpa [vectorLoad] using h.symm
  rw [heq]
  simp [vectorIsReady]

/-- Witness for C7 (amended): dimensions 384 vs 768 differ, and the load
still succeeds with a ready retriever. -/
theorem vector_load_no_dim_check_witness :
    cxVecIm.embedding_dim ≠ 768 ∧
    vectorLoad cxVecSt0 (some cxVecIx) (some cxVecIm)
      = .ok { modelName := cxVecSt0.modelName, chunkIds := cxVecIm.chunk_ids,
              embeddingDim := cxVecIm.embedding_dim, hasIndex := true } ∧
    vectorIsReady { modelName := cxVecSt0.modelName, chunkIds := cxVecIm.chunk_ids,
                    embeddingDim := cxVecIm.embedding_dim, hasIndex := true }
      = !cxVecIm.chunk_ids.isEmpty :=
  ⟨by decide,
   (vector_load_no_dim_check cxVecSt0 cxVecIx cxVecIm).2.2.1 768 (by decide),
   (vector_load_no_dim_check cxVecSt0 cxVecIx cxVecIm).2.2.2 _
     ((vector_load_no_dim_check cxVecSt0 cxVecIx cxVecIm).2.2.1 768 (by decide))⟩

theorem countOcc_cons_ne {c : Char} (hc : c ≠ '<') (l : List Char) :
    countOcc openTag (c :: l) = countOcc openTag l ∧
    countOcc closeTag (c :: l) = countOcc closeTag l := by
  constructor <;> simp [countOcc, openTag, closeTag, leadsWith, Ne.symm hc]

theorem countOcc_op (l : List Char) :
    countOcc openTag (openTag ++ l) = countOcc openTag l + 1 ∧
    countOcc closeTag (openTag ++ l) = countOcc closeTag l := by
  constructor <;> simp [countOcc, openTag, closeTag, leadsWith] <;> omega

theorem countOcc_cl (l : List Char) :
    countOcc openTag (closeTag ++ l) = countOcc openTag l ∧
    countOcc closeTag (closeTag ++ l) = countOcc closeTag l + 1 := by
  constructor <;> simp [countOcc, openTag, closeTag, leadsWith] <;> omega

theorem tagStruct_counts {s : List Char} {n m : ℕ} (h : TagStruct s n m) :
    countOcc openTag s = n ∧ countOcc closeTag s = m := by
  induction h with
  | nil => simp [countOcc]
  | ch c h1 h2 _ ih =>
    exact ⟨((countOcc_cons_ne h1 _).1).trans ih.1, ((countOcc_cons_ne h1 _).2).trans ih.2⟩
  | op _ ih => exact ⟨((countOcc_op _).1).trans (by rw [ih.1]), ((countOcc_op _).2).trans ih.2⟩
  | cl _ ih => exact ⟨((countOcc_cl _).1).trans ih.1, ((countOcc_cl _).2).trans (by rw [ih.2])⟩

theorem tagStruct_plain {s : List Char} (h : ∀ c ∈ s, c ≠ '<' ∧ c ≠ '>') :
    TagStruct s 0 0 := by
  induction s with
  | nil => exact .nil
  | cons c cs ih =>
    exact .ch c (h c (List.mem_cons_self c cs)).1 (h c (List.mem_cons_self c cs)).2
      (ih fun x hx => h x (List.mem_cons_of_mem c hx))

theorem tagStruct_append_plain {w l : List Char} {n m : ℕ}
    (hw : ∀ c ∈ w, c ≠ '<' ∧ c ≠ '>') (h : TagStruct l n m) : TagStruct (w ++ l) n m := by
  induction w with
  | nil => simpa using h
  | cons c cs ih =>
    exact .ch c (hw c (List.mem_cons_self c cs)).1 (hw c (List.mem_cons_self c cs)).2
      (ih fun x hx => hw x (List.mem_cons_of_mem c hx))

theorem tagStruct_drop {s : List Char} {n m : ℕ} (h : TagStruct s n m) :
    ∀ j : ℕ, (∀ c ∈ s.take j, c ≠ '<' ∧ c ≠ '>') → TagStruct (s.drop j) n m := by
  induction h with
  | nil => intro j _; simpa using TagStruct.nil
  | ch c h1 h2 hl ih =>
    intro j hj
    cases j with
    | zero => exact .ch c h1 h2 hl
    | succ j =>
      simp only [List.drop_succ_cons]
      exact ih j fun x hx => hj x (by simp [List.take_succ_cons, hx])
  | op hl ih =>
    intro j hj
    cases j with
    | zero => exact .op hl
    | succ j =>
      exfalso
      exact (hj '<' (by simp [openTag, List.take_succ_cons])).1 rfl
  | cl hl ih =>
    intro j hj
    cases j with
    | zero => exact .cl hl
    | succ j =>
      exfalso
      exact (hj '<' (by simp [closeTag, List.take_succ_cons])).1 rfl

theorem ofNat_toNat_valid (n : ℕ) (h : n < 0xd800) : (Char.ofNat n).toNat = n := by
  have hv : n.isValidChar := Or.inl h
  simp [Char.ofNat, hv, Char.toNat, Char.ofNatAux, UInt32.toNat]

theorem toLower_of_not_upper (d : Char) (hd : ¬(d.toNat ≥ 65 ∧ d.toNat ≤ 90)) :
    Char.toLower d = d := by
  simp only [Char.toLower]
  rw [if_neg hd]

theorem toLower_spec (c : Char) :
    Char.toLower c = c ∨ (97 ≤ (Char.toLower c).toNat ∧ (Char.toLower c).toNat ≤ 122) := by
  by_cases h : c.toNat ≥ 65 ∧ c.toNat ≤ 90
  · right
    simp only [Char.toLower]
    rw [if_pos h, ofNat_toNat_valid (c.toNat + 32) (by omega)]
    omega
  · left; exact toLower_of_not_upper c h

theorem toLower_idem (c : Char) : Char.toLower (Char.toLower c) = Char.toLower c := by
  rcases toLower_spec c with h | ⟨h1, h2⟩
  · rw [h]; exact h
  · exact toLower_of_not_upper _ (by omega)


theorem toLower_eq_nonletter {c d : Char} (hd : d.toNat < 97) (h : Char.toLower c = d) :
    c = d := by
  rcases toLower_spec c with h2 | ⟨h1, _⟩
  · exact h2.symm.trans h
  · rw [h] at h1; omega

theorem toLower_ne_lt {c : Char} (h : c ≠ '<') : Char.toLower c ≠ '<' := by
  intro he
  exact h (toLower_eq_nonletter (by decide) he)

theorem toLower_ne_gt {c : Char} (h : c ≠ '>') : Char.toLower c ≠ '>' := by
  intro he
  exact h (toLower_eq_nonletter (by decide) he)

theorem matchCI_take_eq {t s : List Char} (h : matchCI t s = true) :
    (s.take t.length).map Char.toLower = t.map Char.toLower := by
  simpa [matchCI] using h

theorem matchCI_length {t s : List Char} (h : matchCI t s = true) : t.length ≤ s.length := by
  have := congrArg List.length (matchCI_take_eq h)
  simp at this
  omega

theorem matchCI_plain {t s : List Char} (ht : ∀ c ∈ t, c ≠ '<' ∧ c ≠ '>')
    (h : matchCI t s = true) : ∀ x ∈ s.take t.length, x ≠ '<' ∧ x ≠ '>' := by
  intro x hx
  have hmem : Char.toLower x ∈ (t.map Char.toLower) := by
    rw [← matchCI_take_eq h]
    exact List.mem_map_of_mem _ hx
  obtain ⟨c, hc, hlc⟩ := List.mem_map.mp hmem
  constructor
  · intro he; rw [he] at hlc
    exact toLower_ne_lt (ht c hc).1 (hlc.trans (by decide))
  · intro he; rw [he] at hlc
    exact toLower_ne_gt (ht c hc).2 (hlc.trans (by decide))

theorem matchCI_head_ne {c0 d : Char} (t' rest : List Char)
    (hd : Char.toLower d ≠ Char.toLower c0) : matchCI (c0 :: t') (d :: rest) = false := by
  simp [matchCI, hd]

theorem matchAt_false_of_matchCI {t s : List Char} {prev : Option Char}
    (h : matchCI t s = false) : matchAt t prev s = false := by
  simp [matchAt, h]

theorem matchAt_false_angle {t : List Char} (ht0 : t ≠ [])
    (ht : ∀ c ∈ t, c ≠ '<' ∧ c ≠ '>') (prev : Option Char) {d : Char}
    (hd : d = '<' ∨ d = '>') (l : List Char) : matchAt t prev (d :: l) = false := by
  rcases t with _ | ⟨c0, t'⟩
  · exact absurd rfl ht0
  apply matchAt_false_of_matchCI
  apply matchCI_head_ne
  rcases hd with rfl | rfl
  · rw [show Char.toLower '<' = '<' from by decide]
    exact fun he => toLower_ne_lt (ht c0 (List.mem_cons_self _ _)).1 he.symm
  · rw [show Char.toLower '>' = '>' from by decide]
    exact fun he => toLower_ne_gt (ht c0 (List.mem_cons_self _ _)).2 he.symm

theorem matchAt_false_word_word {t : List Char} {p c : Char} (s : List Char)
    (hp : isWordChar p = true) (hc : isWordChar c = true) :
    matchAt t (some p) (c :: s) = false := by
  simp [matchAt, bnd, wordOpt, hp, hc]

theorem matchAt_false_nonword_nonword {t : List Char} {p c : Char} (s : List Char)
    (hp : isWordChar p = false) (hc : isWordChar c = false) :
    matchAt t (some p) (c :: s) = false := by
  simp [matchAt, bnd, wordOpt, hp, hc]

theorem matchAt_mark_false {t : List Char} (ht0 : t ≠ [])
    (ht : ∀ c ∈ t, c ≠ '<' ∧ c ≠ '>')
    (htm : t.map Char.toLower ≠ ['m', 'a', 'r', 'k'])
    (prev : Option Char) (l : List Char) :
    matchAt t prev ('m' :: 'a' :: 'r' :: 'k' :: '>' :: l) = false := by
  rcases t with _ | ⟨c0, _ | ⟨c1, _ | ⟨c2, _ | ⟨c3, _ | ⟨c4, t5⟩⟩⟩⟩⟩
  · exact absurd rfl ht0
  · simp [matchAt, bnd, wordOpt, isWordChar]
  · simp [matchAt, bnd, wordOpt, isWordChar]
  · simp [matchAt, bnd, wordOpt, isWordChar]
  · cases hmc : matchCI [c0, c1, c2, c3] ('m' :: 'a' :: 'r' :: 'k' :: '>' :: l) with
    | false => exact matchAt_false_of_matchCI hmc
    | true =>
      exfalso
      apply htm
      have := matchCI_take_eq hmc
      simpa [List.take, List.map,
        show Char.toLower 'm' = 'm' from by decide,
        show Char.toLower 'a' = 'a' from by decide,
        show Char.toLower 'r' = 'r' from by decide,
        show Char.toLower 'k' = 'k' from by decide] using this.symm
  · apply matchAt_false_of_matchCI
    cases hmc : matchCI (c0 :: c1 :: c2 :: c3 :: c4 :: t5) ('m' :: 'a' :: 'r' :: 'k' :: '>' :: l) with
    | false => rfl
    | true =>
      exfalso
      have := matchCI_take_eq hmc
      simp [List.take, List.map] at this
      exact toLower_ne_gt (ht c4 (by simp)).2 ((this.2.2.2.2.1).symm.trans
        (show Char.toLower '>' = '>' from by decide))

theorem subGoF_openTag {t : List Char} (ht0 : t ≠ [])
    (ht : ∀ c ∈ t, c ≠ '<' ∧ c ≠ '>')
    (htm : t.map Char.toLower ≠ ['m', 'a', 'r', 'k'])
    (f : ℕ) (prev : Option Char) (l : List Char) :
    subGoF t (f + 6) prev (openTag ++ l) = openTag ++ subGoF t f (some '>') l := by
  have h1 : matchAt t prev ('<' :: 'm' :: 'a' :: 'r' :: 'k' :: '>' :: l) = false :=
    matchAt_false_angle ht0 ht prev (Or.inl rfl) _
  have h2 : matchAt t (some '<') ('m' :: 'a' :: 'r' :: 'k' :: '>' :: l) = false :=
    matchAt_mark_false ht0 ht htm _ l
  have h3 : matchAt t (some 'm') ('a' :: 'r' :: 'k' :: '>' :: l) = false :=
    matchAt_false_word_word _ (by decide) (by decide)
  have h4 : matchAt t (some 'a') ('r' :: 'k' :: '>' :: l) = false :=
    matchAt_false_word_word _ (by decide) (by decide)
  have h5 : matchAt t (some 'r') ('k' :: '>' :: l) = false :=
    matchAt_false_word_word _ (by decide) (by decide)
  have h6 : matchAt t (some 'k') ('>' :: l) = false :=
    matchAt_false_angle ht0 ht _ (Or.inr rfl) _
  show subGoF t (f + 6) prev ('<' :: 'm' :: 'a' :: 'r' :: 'k' :: '>' :: l) = _
  rw [show f + 6 = (f + 5) + 1 from rfl, subGoF, if_neg (by simp [h1])]
  rw [show f + 5 = (f + 4) + 1 from rfl, subGoF, if_neg (by simp [h2])]
  rw [show f + 4 = (f + 3) + 1 from rfl, subGoF, if_neg (by simp [h3])]
  rw [show f + 3 = (f + 2) + 1 from rfl, subGoF, if_neg (by simp [h4])]
  rw [show f + 2 = (f + 1) + 1 from rfl, subGoF, if_neg (by simp [h5])]
  rw [subGoF, if_neg (by simp [h6])]
  rfl

theorem subGoF_closeTag {t : List Char} (ht0 : t ≠ [])
    (ht : ∀ c ∈ t, c ≠ '<' ∧ c ≠ '>')
    (htm : t.map Char.toLower ≠ ['m', 'a', 'r', 'k'])
    (f : ℕ) (prev : Option Char) (l : List Char) :
    subGoF t (f + 7) prev (closeTag ++ l) = closeTag ++ subGoF t f (some '>') l := by
  have h1 : matchAt t prev ('<' :: '/' :: 'm' :: 'a' :: 'r' :: 'k' :: '>' :: l) = false :=
    matchAt_false_angle ht0 ht prev (Or.inl rfl) _
  have h2 : matchAt t (some '<') ('/' :: 'm' :: 'a' :: 'r' :: 'k' :: '>' :: l) = false :=
    matchAt_false_nonword_nonword _ (by decide) (by decide)
  have h3 : matchAt t (some '/') ('m' :: 'a' :: 'r' :: 'k' :: '>' :: l) = false :=
    matchAt_mark_false ht0 ht htm _ l
  have h4 : matchAt t (some 'm') ('a' :: 'r' :: 'k' :: '>' :: l) = false :=
    matchAt_false_word_word _ (by decide) (by decide)
  have h5 : matchAt t (some 'a') ('r' :: 'k' :: '>' :: l) = false :=
    matchAt_false_word_word _ (by decide) (by decide)
  have h6 : matchAt t (some 'r') ('k' :: '>' :: l) = false :=
    matchAt_false_word_word _ (by decide) (by decide)
  have h7 : matchAt t (some 'k') ('>' :: l) = false :=
    matchAt_false_angle ht0 ht _ (Or.inr rfl) _
  show subGoF t (f + 7) prev ('<' :: '/' :: 'm' :: 'a' :: 'r' :: 'k' :: '>' :: l) = _
  rw [show f + 7 = (f + 6) + 1 from rfl, subGoF, if_neg (by simp [h1])]
  rw [show f + 6 = (f + 5) + 1 from rfl, subGoF, if_neg (by simp [h2])]
  rw [show f + 5 = (f + 4) + 1 from rfl, subGoF, if_neg (by simp [h3])]
  rw [show f + 4 = (f + 3) + 1 from rfl, subGoF, if_neg (by simp [h4])]
  rw [show f + 3 = (f + 2) + 1 from rfl, subGoF, if_neg (by simp [h5])]
  rw [show f + 2 = (f + 1) + 1 from rfl, subGoF, if_neg (by simp [h6])]
  rw [subGoF, if_neg (by simp [h7])]
  rfl

theorem subGoF_tagStruct {t : List Char} (ht0 : t ≠ [])
    (ht : ∀ c ∈ t, c ≠ '<' ∧ c ≠ '>')
    (htm : t.map Char.toLower ≠ ['m', 'a', 'r', 'k']) :
    ∀ (fuel : ℕ) (s : List Char) (prev : Option Char) (n m : ℕ),
      s.length ≤ fuel → TagStruct s n m →
      ∃ k, TagStruct (subGoF t fuel prev s) (n + k) (m + k) := by
  intro fuel
  induction fuel using Nat.strong_induction_on with
  | _ fuel ih =>
    intro s prev n m hlen hts
    cases fuel with
    | zero => exact ⟨0, by simpa [subGoF] using hts⟩
    | succ f =>
      cases hts with
      | nil => exact ⟨0, by simpa [subGoF] using TagStruct.nil⟩
      | ch c h1 h2 hl =>
        rename_i l
        by_cases hm : matchAt t prev (c :: l) = true
        · have hCI : matchCI t (c :: l) = true := by
            simp [matchAt, Bool.and_eq_true] at hm
            exact hm.2.1
          have htk : ∀ x ∈ (c :: l).take t.length, x ≠ '<' ∧ x ≠ '>' :=
            matchCI_plain ht hCI
          have htlen : t.length ≤ (c :: l).length := matchCI_length hCI
          have htpos : 1 ≤ t.length := by
            cases t with
            | nil => exact absurd rfl ht0
            | cons a as => simp
          have hdrop : TagStruct ((c :: l).drop t.length) n m :=
            tagStruct_drop (TagStruct.ch c h1 h2 hl) t.length htk
          have hlen2 : ((c :: l).drop t.length).length ≤ f := by
            simp only [List.length_drop, List.length_cons]
            simp only [List.length_cons] at hlen
            omega
          obtain ⟨k, hk⟩ := ih f (by omega) _ (((c :: l).take t.length).getLast?) n m hlen2 hdrop
          refine ⟨k + 1, ?_⟩
          rw [subGoF, if_pos hm]
          have hin : TagStruct (closeTag ++ subGoF t f (((c :: l).take t.length).getLast?)
              ((c :: l).drop t.length)) (n + k) (m + k + 1) := TagStruct.cl hk
          have hmid := tagStruct_append_plain htk hin
          have hout := TagStruct.op hmid
          simpa [Nat.add_assoc, Nat.add_comm, Nat.add_left_comm] using hout
        · rw [subGoF, if_neg hm]
          have hlen2 : l.length ≤ f := by simp at hlen; omega
          obtain ⟨k, hk⟩ := ih f (by omega) l (some c) n m hlen2 hl
          exact ⟨k, TagStruct.ch c h1 h2 hk⟩
      | op hl =>
        rename_i l n'
        have hlen6 : 6 + l.length ≤ f + 1 := by
          have hx := hlen
          simp [openTag] at hx
          omega
        obtain ⟨g, hg⟩ : ∃ g, f + 1 = g + 6 := ⟨f + 1 - 6, by omega⟩
        rw [hg, subGoF_openTag ht0 ht htm g prev l]
        obtain ⟨k, hk⟩ := ih g (by omega) l (some '>') n' m (by omega) hl
        refine ⟨k, ?_⟩
        have := TagStruct.op hk
        simpa [Nat.add_assoc, Nat.add_comm, Nat.add_left_comm] using this
      | cl hl =>
        rename_i l m'
        have hlen7 : 7 + l.length ≤ f + 1 := by
          have hx := hlen
          simp [closeTag] at hx
          omega
        obtain ⟨g, hg⟩ : ∃ g, f + 1 = g + 7 := ⟨f + 1 - 7, by omega⟩
        rw [hg, subGoF_closeTag ht0 ht htm g prev l]
        obtain ⟨k, hk⟩ := ih g (by omega) l (some '>') n m' (by omega) hl
        refine ⟨k, ?_⟩
        have := TagStruct.cl hk
        simpa [Nat.add_assoc, Nat.add_comm, Nat.add_left_comm] using this

theorem pySubTerm_tagStruct {t : List Char} (ht0 : t ≠ [])
    (ht : ∀ c ∈ t, c ≠ '<' ∧ c ≠ '>')
    (htm : t.map Char.toLower ≠ ['m', 'a', 'r', 'k'])
    {s : List Char} {n m : ℕ} (hts : TagStruct s n m) :
    ∃ k, TagStruct (pySubTerm t s) (n + k) (m + k) :=
  subGoF_tagStruct ht0 ht htm s.length s none n m (le_refl _) hts

theorem splitWsF_mem :
    ∀ (f : ℕ) (l : List Char) (w : List Char), w ∈ splitWsF f l →
      w ≠ [] ∧ ∀ c ∈ w, c ∈ l := by
  intro f
  induction f with
  | zero => intro l w hw; simp [splitWsF] at hw
  | succ f ih =>
    intro l w hw
    cases l with
    | nil => simp [splitWsF] at hw
    | cons c cs =>
      by_cases hc : c.isWhitespace = true
      · rw [splitWsF, if_pos hc] at hw
        obtain ⟨h1, h2⟩ := ih cs w hw
        exact ⟨h1, fun x hx => List.mem_cons_of_mem c (h2 x hx)⟩
      · rw [splitWsF, if_neg hc] at hw
        rcases List.mem_cons.mp hw with rfl | hw2
        · refine ⟨by simp, ?_⟩
          intro x hx
          rcases List.mem_cons.mp hx with rfl | hx2
          · exact List.mem_cons_self _ _
          · exact List.mem_cons_of_mem c ((List.takeWhile_sublist _).subset hx2)
        · obtain ⟨h1, h2⟩ := ih _ w hw2
          refine ⟨h1, fun x hx => List.mem_cons_of_mem c ?_⟩
          exact (List.dropWhile_sublist _).subset (h2 x hx)

theorem splitWs_mem {l w : List Char} (hw : w ∈ splitWs l) : w ≠ [] ∧ ∀ c ∈ w, c ∈ l :=
  splitWsF_mem l.length l w hw

theorem firstDedupAux_subset :
    ∀ (seen l : List (List Char)) (w : List Char), w ∈ firstDedupAux seen l → w ∈ l := by
  intro seen l
  induction l generalizing seen with
  | nil => intro w hw; simp [firstDedupAux] at hw
  | cons x xs ih =>
    intro w hw
    by_cases hx : seen.contains x = true
    · rw [firstDedupAux, if_pos hx] at hw
      exact List.mem_cons_of_mem x (ih seen w hw)
    · rw [firstDedupAux, if_neg hx] at hw
      rcases List.mem_cons.mp hw with rfl | hw2
      · exact List.mem_cons_self _ _
      · exact List.mem_cons_of_mem x (ih _ w hw2)

theorem joinWords_mem :
    ∀ (ws : List (List Char)) (c : Char), c ∈ joinWords ws →
      c = ' ' ∨ ∃ w ∈ ws, c ∈ w := by
  intro ws
  induction ws with
  | nil => intro c hc; simp [joinWords] at hc
  | cons w xs ih =>
    intro c hc
    cases xs with
    | nil =>
      right
      exact ⟨w, List.mem_cons_self _ _, by simpa [joinWords] using hc⟩
    | cons x ys =>
      rw [joinWords] at hc
      rcases List.mem_append.mp hc with h1 | h2
      · exact Or.inr ⟨w, List.mem_cons_self _ _, h1⟩
      · rcases List.mem_cons.mp h2 with rfl | h3
        · exact Or.inl rfl
        · rcases ih c h3 with h4 | ⟨v, hv1, hv2⟩
          · exact Or.inl h4
          · exact Or.inr ⟨v, List.mem_cons_of_mem w hv1, hv2⟩

theorem snippetCore_chars {content query : String}
    (hc : ∀ c ∈ content.toList, c ≠ '<' ∧ c ≠ '>') :
    ∀ c ∈ snippetCore content query, c ≠ '<' ∧ c ≠ '>' := by
  intro c hcm
  have hword : ∀ x : Char, (x ∈ content.toList ∨ x = ' ' ∨ x ∈ dots) → x ≠ '<' ∧ x ≠ '>' := by
    rintro x (hx | rfl | hx)
    · exact hc x hx
    · exact ⟨by decide, by decide⟩
    · rcases (by simpa [dots] using hx : x = '.') with rfl
      exact ⟨by decide, by decide⟩
  apply hword
  simp only [snippetCore] at hcm
  set words := splitWs content.toList with hwords
  set bs := bestStart (splitWs (query.toList.map Char.toLower)) words with hbs
  set s0 := joinWords ((words.drop bs).take 50) with hs0
  set s1 := if 300 < s0.length then s0.take 300 ++ dots else s0 with hs1
  set s2 := if 0 < bs then dots ++ s1 else s1 with hs2
  have m0 : ∀ x ∈ s0, x ∈ content.toList ∨ x = ' ' ∨ x ∈ dots := by
    intro x hx
    rw [hs0] at hx
    rcases joinWords_mem _ x hx with rfl | ⟨w, hw1, hw2⟩
    · exact Or.inr (Or.inl rfl)
    · left
      have hw3 : w ∈ words := (List.drop_subset _ _) ((List.take_subset _ _) hw1)
      exact (splitWs_mem hw3).2 x hw2
  have m1 : ∀ x ∈ s1, x ∈ content.toList ∨ x = ' ' ∨ x ∈ dots := by
    intro x hx
    rw [hs1] at hx
    split at hx
    · rcases List.mem_append.mp hx with h | h
      · exact m0 x (List.take_subset _ _ h)
      · exact Or.inr (Or.inr h)
    · exact m0 x hx
  have m2 : ∀ x ∈ s2, x ∈ content.toList ∨ x = ' ' ∨ x ∈ dots := by
    intro x hx
    rw [hs2] at hx
    split at hx
    · rcases List.mem_append.mp hx with h | h
      · exact Or.inr (Or.inr h)
      · exact m1 x h
    · exact m1 x hx
  split at hcm
  · rcases List.mem_append.mp hcm with h | h
    · exact m2 c h
    · exact Or.inr (Or.inr h)
  · exact m2 c hcm

theorem snippetCore_length_le (content query : String) :
    (snippetCore content query).length ≤ 309 := by
  simp only [snippetCore]
  set words := splitWs content.toList with hwords
  set bs := bestStart (splitWs (query.toList.map Char.toLower)) words with hbs
  set s0 := joinWords ((words.drop bs).take 50) with hs0
  set s1 := if 300 < s0.length then s0.take 300 ++ dots else s0 with hs1
  set s2 := if 0 < bs then dots ++ s1 else s1 with hs2
  have l1 : s1.length ≤ 303 := by
    rw [hs1]
    split
    · simp [dots, List.length_append, List.length_take]
      all_goals omega
    · omega
  have l2 : s2.length ≤ 306 := by
    rw [hs2]
    split
    · simp only [List.length_append]
      simp [dots]
      omega
    · omega
  split
  · simp only [List.length_append]
    simp [dots]
    omega
  · omega

theorem mem_map_toLower_fix {l t : List Char} (hsub : ∀ c ∈ t, c ∈ l.map Char.toLower) :
    t.map Char.toLower = t := by
  induction t with
  | nil => rfl
  | cons c cs ih =>
    have hc := hsub c (List.mem_cons_self _ _)
    obtain ⟨d, _, hd⟩ := List.mem_map.mp hc
    have : Char.toLower c = c := by
      rw [← hd, toLower_idem]
    simp only [List.map_cons, this]
    rw [ih fun x hx => hsub x (List.mem_cons_of_mem c hx)]

theorem query_term_facts {query : String}
    (hq : ∀ c ∈ query.toList, c ≠ '<' ∧ c ≠ '>')
    (hmark : ['m', 'a', 'r', 'k'] ∉ splitWs (query.toList.map Char.toLower)) :
    ∀ t ∈ firstDedup (splitWs (query.toList.map Char.toLower)),
      t ≠ [] ∧ (∀ c ∈ t, c ≠ '<' ∧ c ≠ '>') ∧ t.map Char.toLower ≠ ['m', 'a', 'r', 'k'] := by
  intro t ht
  have ht0 : t ∈ splitWs (query.toList.map Char.toLower) := firstDedupAux_subset _ _ t ht
  obtain ⟨hne, hsub⟩ := splitWs_mem ht0
  have hchars : ∀ c ∈ t, c ≠ '<' ∧ c ≠ '>' := by
    intro c hcm
    obtain ⟨d, hd1, hd2⟩ := List.mem_map.mp (hsub c hcm)
    constructor
    · rw [← hd2]; exact toLower_ne_lt (hq d hd1).1
    · rw [← hd2]; exact toLower_ne_gt (hq d hd1).2
  refine ⟨hne, hchars, ?_⟩
  rw [mem_map_toLower_fix hsub]
  intro he
  rw [he] at ht0
  exact hmark ht0

theorem foldl_sub_tagStruct {terms : List (List Char)}
    (hterms : ∀ t ∈ terms,
      t ≠ [] ∧ (∀ c ∈ t, c ≠ '<' ∧ c ≠ '>') ∧ t.map Char.toLower ≠ ['m', 'a', 'r', 'k']) :
    ∀ (s : List Char) (n : ℕ), TagStruct s n n →
      ∃ k, TagStruct (terms.foldl (fun s t => pySubTerm t s) s) (n + k) (n + k) := by
  induction terms with
  | nil => intro s n h; exact ⟨0, by simpa using h⟩
  | cons t ts ih =>
    intro s n h
    obtain ⟨h0, h1, h2⟩ := hterms t (List.mem_cons_self _ _)
    obtain ⟨k1, hk1⟩ := pySubTerm_tagStruct h0 h1 h2 h
    obtain ⟨k2, hk2⟩ := ih (fun x hx => hterms x (List.mem_cons_of_mem t hx)) _ (n + k1) hk1
    exact ⟨k1 + k2, by simpa [Nat.add_assoc] using hk2⟩

theorem highlightSnippet_balanced {content query : String}
    (hc : ∀ c ∈ content.toList, c ≠ '<' ∧ c ≠ '>')
    (hq : ∀ c ∈ query.toList, c ≠ '<' ∧ c ≠ '>')
    (hmark : ['m', 'a', 'r', 'k'] ∉ splitWs (query.toList.map Char.toLower)) :
    countOcc openTag (highlightSnippet content query).toList
      = countOcc closeTag (highlightSnippet content query).toList := by
  have hbase : TagStruct (snippetCore content query) 0 0 :=
    tagStruct_plain (snippetCore_chars hc)
  obtain ⟨k, hk⟩ := foldl_sub_tagStruct (query_term_facts hq hmark) _ 0 hbase
  have hcounts := tagStruct_counts hk
  show countOcc openTag ((firstDedup (splitWs (query.toList.map Char.toLower))).foldl
      (fun s t => pySubTerm t s) (snippetCore content query))
    = countOcc closeTag ((firstDedup (splitWs (query.toList.map Char.toLower))).foldl
      (fun s t => pySubTerm t s) (snippetCore content query))
  rw [hcounts.1, hcounts.2]

/-- C6: amended. For every content and every query, the snippet that
SearchService._highlight_snippet builds before highlighting has length at most
309 = 300 + 3 × len of the ellipsis — not the claimed 306 = 300 + 2 × 3, since
truncation appends its own ellipsis besides the two boundary ones; and whenever
neither the content nor the query contains an angle bracket and no query term is
the word mark, the returned snippet holds as many open mark tags as close mark
tags. The original unconditional claims are refuted by the counterexample. -/
theorem snippet_bound_and_mark_balance (content query : String) :
    (snippetCore content query).length ≤ 309 ∧
    ((∀ c ∈ content.toList, c ≠ '<' ∧ c ≠ '>') →
     (∀ c ∈ query.toList, c ≠ '<' ∧ c ≠ '>') →
     ['m', 'a', 'r', 'k'] ∉ splitWs (query.toList.map Char.toLower) →
     countOcc openTag (highlightSnippet content query).toList
       = countOcc closeTag (highlightSnippet content query).toList) :=
  ⟨snippetCore_length_le content query,
   fun hc hq hm => highlightSnippet_balanced hc hq hm⟩

set_option maxRecDepth 40000 in
/-- C6: counterexample to the spec claim. A content string that already contains a
literal open mark tag, queried with a term that does not occur, is returned with one
open tag and no close tag, so not every open tag is matched; and a 100-word content
of two-letter words queried with that word yields a snippet longer than the claimed
bound of 306 characters (highlighting adds 13 characters per match). -/
theorem snippet_spec_bound_balance_cx :
    countOcc openTag (highlightSnippet "<mark> alpha" "zz").toList = 1 ∧
    countOcc closeTag (highlightSnippet "<mark> alpha" "zz").toList = 0 ∧
    306 < (highlightSnippet (String.mk (joinWords (List.replicate 100 ['a', 'a']))) "aa").length := by
  decide

set_option maxRecDepth 40000 in
/-- Witness: the amended snippet bound and tag balance at a concrete content and query. -/
theorem snippet_bound_and_mark_balance_witness :
    (snippetCore "restart the beta service now" "beta").length ≤ 309 ∧
    countOcc openTag (highlightSnippet "restart the beta service now" "beta").toList
      = countOcc closeTag (highlightSnippet "restart the beta service now" "beta").toList :=
  ⟨(snippet_bound_and_mark_balance "restart the beta service now" "beta").1,
   (snippet_bound_and_mark_balance "restart the beta service now" "beta").2
     (by decide) (by decide) (by decide)⟩

end RunbookQuery
